import Mathlib

set_option maxHeartbeats 1000000

/-!
Shallow embedding of the sales-data processing core of
`scripts/multi_file_processor.py` (class `MultiFileProcessor`), whose cleaning
steps are shared with `scripts/data_utils.py` (`clean_data`, `handle_outliers`).
A table is an ordered list of column labels over row-major cells; numbers are
exact rationals standing for the values pandas holds as floats.
-/

/-- A weakly typed cell of a loaded table: a number, a text value, or the
missing sentinel (pandas `NaN`). -/
inductive Cell where
  | missing : Cell
  | num : ℚ → Cell
  | str : String → Cell
deriving DecidableEq

/-- Cell-level `isnull`: only the missing sentinel is null. -/
def Cell.isMissing : Cell → Bool
  | .missing => true
  | _ => false

/-- Numeric view of a cell. -/
def Cell.toNum? : Cell → Option ℚ
  | .num q => some q
  | _ => none

/-- True for cells a numeric (float) pandas column can hold. -/
def Cell.isNumOrMissing : Cell → Bool
  | .str _ => false
  | _ => true

/-- Numeric values of a column, missing entries skipped (pandas `skipna`). -/
def numsOf (col : List Cell) : List ℚ := col.filterMap Cell.toNum?

/-- Ascending sort of the numeric values, as `numpy` sorts before taking a
quantile. -/
def sortQ (xs : List ℚ) : List ℚ := List.insertionSort (fun a b : ℚ => a ≤ b) xs

/-- Linear interpolation at rank `q * (n - 1)` over an ascending list: the
default interpolation of `Series.quantile`.  An empty list yields `none`
(pandas `NaN`). -/
def interpolate : List ℚ → ℚ → Option ℚ
  | [], _ => none
  | s0 :: rest, q =>
    let sorted := s0 :: rest
    let pos : ℚ := q * ((sorted.length : ℚ) - 1)
    let i : ℕ := (⌊pos⌋).toNat
    let lo := sorted.getD i s0
    let hi := sorted.getD (i + 1) lo
    some (lo + (pos - (i : ℚ)) * (hi - lo))

/-- `Series.quantile(q)` with the default linear interpolation
(multi_file_processor.py lines 200-201). -/
def quantileLinear (xs : List ℚ) (q : ℚ) : Option ℚ := interpolate (sortQ xs) q

/-- `Series.median()` over the non-missing values only (line 176): the
0.5-quantile under linear interpolation. -/
def medianOfCol (col : List Cell) : Option ℚ := quantileLinear (numsOf col) (1 / 2)

/-- ASCII lowering of one character; the synonym keys of the mapping table are
ASCII, so this matches Python `str.lower` on every name the table can hit. -/
def lowerChar (c : Char) : Char := if c.isUpper then Char.ofNat (c.toNat + 32) else c

/-- Whitespace trim of a character list (Python `str.strip`). -/
def trimChars (l : List Char) : List Char :=
  ((l.dropWhile Char.isWhitespace).reverse.dropWhile Char.isWhitespace).reverse

/-- Python `col.lower().strip()` (line 147). -/
def normalizeColName (s : String) : String :=
  String.mk (trimChars (s.data.map lowerChar))

/-- Code-point lexicographic comparison of character lists, the order Python
`sorted` uses on strings. -/
def charListLe : List Char → List Char → Bool
  | [], _ => true
  | _ :: _, [] => false
  | a :: as, b :: bs =>
    if a.toNat < b.toNat then true
    else if b.toNat < a.toNat then false
    else charListLe as bs

/-- Code-point lexicographic order on strings. -/
def strLe (a b : String) : Prop := charListLe a.data b.data = true

instance : DecidableRel strLe := fun a b => instDecidableEqBool (charListLe a.data b.data) true

/-- Python `sorted` on a list of strings. -/
def sortStrings (l : List String) : List String := List.insertionSort strLe l

/-- Splitting a character list on a separator, Python `str.split(sep)`. -/
def splitOnChar (sep : Char) : List Char → List (List Char)
  | [] => [[]]
  | c :: cs =>
    match splitOnChar sep cs with
    | [] => [[c]]
    | h :: t => if c = sep then [] :: h :: t else (c :: h) :: t

/-- `Path(file_path).name`: the final `/`-separated path component. -/
def baseName (p : String) : String :=
  String.mk ((splitOnChar '/' p.data).getLastD [])

/-- Digits to a natural number. -/
def digitsToNat (l : List Char) : ℕ := l.foldl (fun n c => n * 10 + (c.toNat - 48)) 0

/-- Decimal-number fragment of `pd.to_numeric(errors="coerce")` on text:
optional sign, digits, optional fractional digits.  Exponents and the other
spellings pandas accepts are not modelled; no claim exercises text coercion. -/
def parseRat? (s : String) : Option ℚ :=
  let l := trimChars s.data
  let signed : ℚ × List Char :=
    match l with
    | c :: rest =>
      if c = '-' then (-1, rest) else if c = '+' then (1, rest) else (1, l)
    | [] => (1, [])
  match splitOnChar '.' signed.2 with
  | [ip] =>
    if ip ≠ [] ∧ ip.all Char.isDigit then some (signed.1 * (digitsToNat ip : ℚ))
    else none
  | [ip, fp] =>
    if (ip ≠ [] ∨ fp ≠ []) ∧ (ip ++ fp).all Char.isDigit then
      some (signed.1 * ((digitsToNat ip : ℚ) + (digitsToNat fp : ℚ) / (10 : ℚ) ^ fp.length))
    else none
  | _ => none

/-- A pandas DataFrame: ordered column labels over row-major cells.  Labels
need not be distinct (`rename` can produce duplicates). -/
structure Table where
  header : List String
  rows : List (List Cell)
deriving DecidableEq

/-- Index of the first column carrying a label. -/
def colIdx : List String → String → Option ℕ
  | [], _ => none
  | c :: cs, n => if c = n then some 0 else (colIdx cs n).map (· + 1)

/-- Column selection `df[n]`; cells of a missing label give the empty list. -/
def Table.getCol (t : Table) (n : String) : List Cell :=
  match colIdx t.header n with
  | some i => t.rows.map (fun r => r.getD i Cell.missing)
  | none => []

/-- Pointwise in-place update of one column, as `fillna(..., inplace=True)` or
a masked `df.loc[...] = ...` assignment performs it. -/
def Table.mapCol (t : Table) (n : String) (f : Cell → Cell) : Table :=
  match colIdx t.header n with
  | some i => ⟨t.header, t.rows.map (fun r => r.set i (f (r.getD i Cell.missing)))⟩
  | none => t

/-- Column assignment `df[n] = vals`: replace the column when the label
exists, append a new column otherwise. -/
def Table.setCol (t : Table) (n : String) (vals : List Cell) : Table :=
  match colIdx t.header n with
  | some i => ⟨t.header, (t.rows.zip vals).map (fun rv => rv.1.set i rv.2)⟩
  | none => ⟨t.header ++ [n], (t.rows.zip vals).map (fun rv => rv.1 ++ [rv.2])⟩

/-- Rectangularity: every row has one cell per header label. -/
def Table.Rect (t : Table) : Prop := ∀ r ∈ t.rows, r.length = t.header.length

instance (t : Table) : Decidable t.Rect :=
  decidable_of_iff (∀ r ∈ t.rows, r.length = t.header.length) Iff.rfl

/-- Column-level `isnull().sum()`. -/
def countMissing (col : List Cell) : ℕ := (col.filter Cell.isMissing).length

/-- `fillna` with a possibly-NaN scalar: missing cells take the scalar when it
is a number; `fillna(NaN)` leaves them missing. -/
def fillMissingWith (m : Option ℚ) (c : Cell) : Cell :=
  match c, m with
  | .missing, some q => .num q
  | c, _ => c

/-- The canonical sales-data fields (line 167). -/
def required_cols : List String :=
  ["Order_ID", "Product", "Quantity", "Price", "Order_Date", "Region"]

/-- Step 1 (lines 173-178): fill missing `Price` with the column median,
guarded by the missing count. -/
def step_fill_price (t : Table) : Table :=
  if 0 < countMissing (t.getCol "Price") then
    t.mapCol "Price" (fillMissingWith (medianOfCol (t.getCol "Price")))
  else t

/-- Step 2 (lines 180-184): fill missing `Region` with the literal
`"Unknown"`, guarded by the missing count. -/
def step_fill_region (t : Table) : Table :=
  if 0 < countMissing (t.getCol "Region") then
    t.mapCol "Region" (fun c => if c.isMissing then Cell.str "Unknown" else c)
  else t

/-- First-occurrence row deduplication, `drop_duplicates` (line 188). -/
def dedupFirst (rows : List (List Cell)) : List (List Cell) :=
  rows.foldl (fun acc r => if r ∈ acc then acc else acc ++ [r]) []

/-- Step 3 (lines 186-190): drop exact duplicate rows, keeping first
occurrences, order preserved. -/
def step_dedup (t : Table) : Table := ⟨t.header, dedupFirst t.rows⟩

/-- Step 4 (lines 192-197): `pd.to_datetime(..., errors="coerce")` on
`Order_Date`.  The date parser is an external library function and is taken as
a parameter; pandas infers the format from the column, so it acts on the whole
column. -/
def step_date (toDatetime : List Cell → List Cell) (t : Table) : Table :=
  t.setCol "Order_Date" (toDatetime (t.getCol "Order_Date"))

/-- Q1, Q3, `upper_bound = Q3 + 1.5 * IQR` of a column (lines 200-203); `none`
when the column has no numeric value (both quantiles NaN). -/
def upperBoundOf (col : List Cell) : Option ℚ :=
  match quantileLinear (numsOf col) (1 / 4), quantileLinear (numsOf col) (3 / 4) with
  | some q1, some q3 => some (q3 + 3 / 2 * (q3 - q1))
  | _, _ => none

/-- One cell of `df.loc[df["Quantity"] > upper_bound, "Quantity"] =
upper_bound` (line 206): a numeric cell strictly above the bound becomes the
bound; a missing cell compares false and stays; an undefined (NaN) bound
changes nothing. -/
def clampCell (ub : Option ℚ) (c : Cell) : Cell :=
  match c, ub with
  | .num v, some u => if u < v then .num u else .num v
  | c, _ => c

/-- The whole outlier step on the `Quantity` column values (lines 199-206),
also `handle_outliers` of data_utils.py (lines 126-154). -/
def clampQuantityCol (col : List Cell) : List Cell :=
  col.map (clampCell (upperBoundOf col))

/-- Step 5 (lines 199-208): IQR clamp on `Quantity`. -/
def step_clamp (t : Table) : Table :=
  t.mapCol "Quantity" (clampCell (upperBoundOf (t.getCol "Quantity")))

/-- Row-wise product with NaN propagation, `df["Quantity"] * df["Price"]`. -/
def mulCell (a b : Cell) : Cell :=
  match a.toNum?, b.toNum? with
  | some x, some y => .num (x * y)
  | _, _ => .missing

/-- Step 6 (lines 210-212): derive `Sales = Quantity * Price`. -/
def step_sales (t : Table) : Table :=
  t.setCol "Sales" (List.zipWith mulCell (t.getCol "Quantity") (t.getCol "Price"))

/-- `pd.to_numeric(errors="coerce")` on one cell. -/
def toNumericCell (c : Cell) : Cell :=
  match c with
  | .num q => .num q
  | .missing => .missing
  | .str s =>
    match parseRat? s with
    | some q => .num q
    | none => .missing

/-- Step 7 (lines 214-218), shared verbatim with the non-sales branch
(lines 231-235): coerce the present numeric columns. -/
def step_coerce (t : Table) : Table :=
  (["Quantity", "Price", "Sales"]).foldl
    (fun t' c => if t'.header.contains c then t'.mapCol c toNumericCell else t') t

/-- Date handling of the non-sales branch (lines 222-229). -/
def step_dates_basic (toDatetime : List Cell → List Cell) (t : Table) : Table :=
  (["Order_Date", "date", "Date"]).foldl
    (fun t' c => if t'.header.contains c then t'.setCol c (toDatetime (t'.getCol c)) else t') t

/-- Steps 1-3 of the full cleaning branch composed. -/
def after_dedup (df : Table) : Table := step_dedup (step_fill_region (step_fill_price df))

/-- Steps 1-5 of the full cleaning branch composed. -/
def after_clamp (toDatetime : List Cell → List Cell) (df : Table) : Table :=
  step_clamp (step_date toDatetime (after_dedup df))

/-- `MultiFileProcessor.basic_data_cleaning` (lines 160-238), the value the
method computes on the copy it makes of its argument (line 162).  The branch
condition is line 168. -/
def basic_data_cleaning (toDatetime : List Cell → List Cell) (df : Table) : Table :=
  if required_cols.all (fun c => df.header.contains c) then
    step_coerce (step_sales (after_clamp toDatetime df))
  else
    step_coerce (step_dates_basic toDatetime df)

/-- The synonym table of `standardize_columns` (lines 96-138). -/
def column_mapping : List (String × String) :=
  [("order_id", "Order_ID"), ("orderid", "Order_ID"), ("invoice", "Order_ID"),
   ("invoiceno", "Order_ID"), ("transaction_id", "Order_ID"),
   ("product", "Product"), ("product_name", "Product"), ("description", "Product"),
   ("stockcode", "Product"), ("item", "Product"),
   ("quantity", "Quantity"), ("qty", "Quantity"), ("amount", "Quantity"),
   ("price", "Price"), ("unit_price", "Price"), ("unitprice", "Price"), ("cost", "Price"),
   ("date", "Order_Date"), ("order_date", "Order_Date"), ("invoicedate", "Order_Date"),
   ("transaction_date", "Order_Date"),
   ("region", "Region"), ("country", "Region"), ("location", "Region"), ("area", "Region"),
   ("customer", "Customer_ID"), ("customer_id", "Customer_ID"), ("customerid", "Customer_ID")]

/-- New name of one column (lines 146-151): the synonym of the lowered,
trimmed label when the table has one, else the label itself. -/
def canonicalName (col : String) : String :=
  match column_mapping.lookup (normalizeColName col) with
  | some c => c
  | none => col

/-- `MultiFileProcessor.standardize_columns` (lines 92-158), the value
computed on the copy of line 141: `rename` relabels every column through the
synonym table (line 153), then `df_copy["Source_File"] = file_name` tags
provenance (line 156).  Returns the mapped table and the applied name mapping
(diagnostic). -/
def standardize_columns (df : Table) (file_name : String) :
    Table × List (String × String) :=
  let renamed : Table := ⟨df.header.map canonicalName, df.rows⟩
  let tagged := renamed.setCol "Source_File" (renamed.rows.map (fun _ => Cell.str file_name))
  (tagged, df.header.map (fun c => (c, canonicalName c)))

/-- Candidate loop of lines 824-828: append `_1`, `_2`, ... until the name is
free of `seen`.  The loop provably needs at most `seen.length + 1` candidates;
the fuel makes that bound explicit. -/
def freshNameGo (col : String) (seen : List String) : ℕ → ℕ → String
  | 0, k => col ++ "_" ++ toString k
  | fuel + 1, k =>
    let cand := col ++ "_" ++ toString k
    if cand ∈ seen then freshNameGo col seen fuel (k + 1) else cand

/-- First suffixed name not already taken (lines 824-828). -/
def freshName (col : String) (seen : List String) : String :=
  freshNameGo col seen (seen.length + 1) 1

/-- Duplicate-label repair loop of `combine_all_data` (lines 820-831). -/
def fixDupColsGo : List String → List String → List String
  | _, [] => []
  | seen, c :: cs =>
    let c' := if c ∈ seen then freshName c seen else c
    c' :: fixDupColsGo (seen ++ [c']) cs

/-- Duplicate-label repair (lines 820-831), run only when a duplicate exists
(guard of line 817). -/
def fixTable (t : Table) : Table :=
  if t.header.Nodup then t else ⟨fixDupColsGo [] t.header, t.rows⟩

/-- Union of all input labels, then `sorted(all_columns)` (lines 844-848 and
861). -/
def unionCols (dfs : List Table) : List String :=
  sortStrings ((dfs.map Table.header).flatten.dedup)

/-- One row after the missing labels are added as NaN columns and the columns
are reordered to `sorted(all_columns)` (lines 851-862). -/
def reindexRow (cols : List String) (df : Table) (r : List Cell) : List Cell :=
  cols.map (fun c =>
    match colIdx df.header c with
    | some i => r.getD i Cell.missing
    | none => Cell.missing)

/-- `reindex(columns=sorted(all_columns))` of one table (lines 853-862). -/
def addMissingAndReindex (cols : List String) (df : Table) : Table :=
  ⟨cols, df.rows.map (reindexRow cols df)⟩

/-- Full-union merge tier of `combine_all_data` (lines 842-867):
`pd.concat(standardized_dfs, ignore_index=True)` after reindexing every table
to the sorted union of labels. -/
def full_union_merge (dfs : List Table) : Table :=
  ⟨unionCols dfs, (dfs.map (fun df => (addMissingAndReindex (unionCols dfs) df).rows)).flatten⟩

/-- `MultiFileProcessor.combine_all_data` (lines 788-939): `None` on no
processed files (line 792), skip empty tables (lines 809-836), repair
duplicate labels (lines 817-831), `None` when nothing remains (line 838), else
the full-union merge.  Only the primary tier is modelled: the fallback tier
(lines 873-937) runs only when the pandas calls of the primary tier raise,
which the total functions of this model never do. -/
def combine_all_data (files : List (String × Table)) : Option Table :=
  if files.isEmpty then none
  else
    let combined := files.filterMap (fun ft =>
      if 0 < ft.2.rows.length then some (fixTable ft.2) else none)
    if combined.isEmpty then none
    else some (full_union_merge combined)

/-- Constant-provenance check: every row of the table carries `name` in its
`Source_File` column. -/
def hasProvenance (name : String) (t : Table) : Bool :=
  match colIdx t.header "Source_File" with
  | some i => t.rows.all (fun r => decide (r.getD i Cell.missing = Cell.str name))
  | none => false

/-- One per-file outcome record of `process_multiple_files`: the success entry
of lines 765-770 or the failure entry of lines 774-780, each recording the
file path. -/
inductive Outcome (α : Type) where
  | ok (data : α) (file_path : String) : Outcome α
  | failed (error : String) (file_path : String) : Outcome α
deriving DecidableEq

/-- Python dict assignment `results[name] = v`: replace in place when the key
exists, append otherwise. -/
def dictInsert {α : Type} (k : String) (v : α) (d : List (String × α)) : List (String × α) :=
  if d.any (fun kv => kv.1 = k) then d.map (fun kv => if kv.1 = k then (k, v) else kv)
  else d ++ [(k, v)]

/-- Body of one iteration of the batch loop (lines 756-780): the progress
hook, `process_single_file` and result assembly are abstracted as one fallible
action `process`; the `except` arm records the caught exception. -/
def outcomeOf {α : Type} (process : String → Except String α) (p : String) : Outcome α :=
  match process p with
  | .ok a => .ok a p
  | .error e => .failed e p

/-- `MultiFileProcessor.process_multiple_files` (lines 748-786): fold the
per-file loop over the paths, keying results by `Path(file_path).name`. -/
def process_multiple_files {α : Type} (process : String → Except String α)
    (paths : List String) : List (String × Outcome α) :=
  paths.foldl (fun results p => dictInsert (baseName p) (outcomeOf process p) results) []

/-- A store of live DataFrame objects; a reference is an index into it. -/
structure Heap where
  tables : List Table

/-- The table an uninitialised reference reads as. -/
def emptyTable : Table := ⟨[], []⟩

/-- Dereference. -/
def Heap.get (h : Heap) (r : ℕ) : Table := h.tables.getD r emptyTable

/-- `df.copy()` and fresh object creation allocate a new reference. -/
def Heap.alloc (h : Heap) (t : Table) : Heap × ℕ :=
  (⟨h.tables ++ [t]⟩, h.tables.length)

/-- In-place mutation (`inplace=True`, column assignment) of one reference. -/
def Heap.set (h : Heap) (r : ℕ) (t : Table) : Heap := ⟨h.tables.set r t⟩

/-- `standardize_columns` as it acts on the object store: line 141 copies the
argument into a fresh reference, lines 153 and 156 mutate only that copy. -/
def standardize_columns_heap (h : Heap) (df : ℕ) (file_name : String) :
    Heap × ℕ × List (String × String) :=
  let copied := h.get df
  let allocated := h.alloc copied
  let h1 := allocated.1
  let r := allocated.2
  let renamed : Table := ⟨(h1.get r).header.map canonicalName, (h1.get r).rows⟩
  let h2 := h1.set r renamed
  let tagged := (h2.get r).setCol "Source_File"
    ((h2.get r).rows.map (fun _ => Cell.str file_name))
  let h3 := h2.set r tagged
  (h3, r, (h.get df).header.map (fun c => (c, canonicalName c)))

/-- `basic_data_cleaning` as it acts on the object store: line 162 copies the
argument into a fresh reference, every later statement mutates only the
copy. -/
def basic_data_cleaning_heap (toDatetime : List Cell → List Cell) (h : Heap) (df : ℕ) :
    Heap × ℕ :=
  let allocated := h.alloc (h.get df)
  let h1 := allocated.1
  let r := allocated.2
  let h2 := h1.set r (basic_data_cleaning toDatetime (h1.get r))
  (h2, r)

/-- A small concrete mapped sales table: two distinct rows, one missing
`Quantity` and one missing `Region`. -/
def sampleFull : Table :=
  ⟨["Order_ID", "Product", "Quantity", "Price", "Order_Date", "Region"],
   [[Cell.num 1, Cell.str "A", Cell.num 2, Cell.num 5, Cell.str "2023-01-01", Cell.str "N"],
    [Cell.num 2, Cell.str "B", Cell.missing, Cell.num 4, Cell.str "2023-01-02", Cell.missing]]⟩

/-- The table of scenario C of the specification: `Price` column
`[10, missing, 20, missing, 30]`, every other field benign and distinct. -/
def scenarioCTable : Table :=
  ⟨["Order_ID", "Product", "Quantity", "Price", "Order_Date", "Region"],
   [[Cell.num 1, Cell.str "A", Cell.num 1, Cell.num 10, Cell.str "d1", Cell.str "N"],
    [Cell.num 2, Cell.str "A", Cell.num 1, Cell.missing, Cell.str "d2", Cell.str "N"],
    [Cell.num 3, Cell.str "A", Cell.num 1, Cell.num 20, Cell.str "d3", Cell.str "N"],
    [Cell.num 4, Cell.str "A", Cell.num 1, Cell.missing, Cell.str "d4", Cell.str "N"],
    [Cell.num 5, Cell.str "A", Cell.num 1, Cell.num 30, Cell.str "d5", Cell.str "N"]]⟩

/-! Auxiliary lemmas about lists, labels and table operations. -/

theorem getD_set_self {α : Type} (l : List α) (i : ℕ) (a d : α) (h : i < l.length) :
    (l.set i a).getD i d = a := by
  rw [List.getD_eq_getElem _ _ (by simpa using h)]
  exact List.getElem_set_self (by simpa using h)

theorem getD_set_ne {α : Type} (l : List α) (i j : ℕ) (a d : α) (h : i ≠ j) :
    (l.set i a).getD j d = l.getD j d := by
  by_cases hj : j < l.length
  · rw [List.getD_eq_getElem _ _ (by simpa using hj), List.getD_eq_getElem _ _ hj]
    exact List.getElem_set_ne h _
  · rw [List.getD_eq_default _ _ (by simpa using Nat.le_of_not_lt hj),
      List.getD_eq_default _ _ (Nat.le_of_not_lt hj)]

theorem getD_mem {α : Type} (l : List α) (i : ℕ) (d : α) (h : i < l.length) :
    l.getD i d ∈ l := by
  rw [List.getD_eq_getElem _ _ h]
  exact List.getElem_mem h

theorem contains_iff {α : Type} [DecidableEq α] (l : List α) (a : α) :
    l.contains a = true ↔ a ∈ l := List.elem_iff

theorem colIdx_lt (hs : List String) (n : String) (i : ℕ) (h : colIdx hs n = some i) :
    i < hs.length := by
  induction hs generalizing i with
  | nil => simp [colIdx] at h
  | cons c cs ih =>
    by_cases hc : c = n
    · simp [colIdx, hc] at h
      simp only [List.length_cons]
      omega
    · simp only [colIdx, if_neg hc, Option.map_eq_some'] at h
      obtain ⟨j, hj, hji⟩ := h
      have := ih j hj
      simp only [List.length_cons]
      omega

theorem colIdx_getD (hs : List String) (n : String) (i : ℕ) (h : colIdx hs n = some i)
    (d : String) : hs.getD i d = n := by
  induction hs generalizing i with
  | nil => simp [colIdx] at h
  | cons c cs ih =>
    by_cases hc : c = n
    · simp [colIdx, hc] at h
      subst h
      simpa using hc
    · simp only [colIdx, if_neg hc, Option.map_eq_some'] at h
      obtain ⟨j, hj, hji⟩ := h
      subst hji
      simpa using ih j hj

theorem colIdx_mem (hs : List String) (n : String) (i : ℕ) (h : colIdx hs n = some i) :
    n ∈ hs := by
  rw [← colIdx_getD hs n i h ""]
  exact getD_mem _ _ _ (colIdx_lt hs n i h)

theorem colIdx_none_iff (hs : List String) (n : String) :
    colIdx hs n = none ↔ n ∉ hs := by
  induction hs with
  | nil => simp [colIdx]
  | cons c cs ih =>
    by_cases hc : c = n
    · simp [colIdx, hc]
    · simp [colIdx, hc, ih, Ne.symm hc]

theorem colIdx_isSome_of_mem (hs : List String) (n : String) (h : n ∈ hs) :
    ∃ i, colIdx hs n = some i := by
  cases hi : colIdx hs n with
  | none => exact absurd h ((colIdx_none_iff hs n).mp hi)
  | some i => exact ⟨i, rfl⟩

theorem colIdx_ne_idx (hs : List String) (n m : String) (i j : ℕ)
    (hn : colIdx hs n = some i) (hm : colIdx hs m = some j) (hnm : n ≠ m) : i ≠ j := by
  intro hij
  subst hij
  exact hnm ((colIdx_getD hs n i hn "").symm.trans (colIdx_getD hs m i hm ""))

theorem colIdx_append_left (hs l : List String) (n : String) (i : ℕ)
    (h : colIdx hs n = some i) : colIdx (hs ++ l) n = some i := by
  induction hs generalizing i with
  | nil => simp [colIdx] at h
  | cons c cs ih =>
    rw [List.cons_append]
    by_cases hc : c = n
    · simp only [colIdx, if_pos hc] at h ⊢
      exact h
    · simp only [colIdx, if_neg hc, Option.map_eq_some'] at h ⊢
      obtain ⟨j, hj, hji⟩ := h
      exact ⟨j, ih j hj, hji⟩

theorem colIdx_append_self (hs : List String) (n : String) (h : colIdx hs n = none) :
    colIdx (hs ++ [n]) n = some hs.length := by
  induction hs with
  | nil => simp [colIdx]
  | cons c cs ih =>
    by_cases hc : c = n
    · simp [colIdx, hc] at h
    · simp only [colIdx, if_neg hc, Option.map_eq_none'] at h
      simp [colIdx, hc, ih h]

theorem colIdx_append_none (hs : List String) (n m : String) (h : colIdx hs m = none)
    (hnm : m ≠ n) : colIdx (hs ++ [n]) m = none := by
  rw [colIdx_none_iff] at h ⊢
  simp only [List.mem_append, List.mem_singleton]
  rintro (hc | hc)
  · exact h hc
  · exact hnm hc

theorem mapCol_header (t : Table) (n : String) (f : Cell → Cell) :
    (t.mapCol n f).header = t.header := by
  unfold Table.mapCol
  cases colIdx t.header n <;> rfl

theorem mapCol_rows_length (t : Table) (n : String) (f : Cell → Cell) :
    (t.mapCol n f).rows.length = t.rows.length := by
  unfold Table.mapCol
  cases colIdx t.header n <;> simp

theorem mapCol_rect (t : Table) (n : String) (f : Cell → Cell) (h : t.Rect) :
    (t.mapCol n f).Rect := by
  unfold Table.mapCol
  cases hc : colIdx t.header n with
  | none => exact h
  | some i =>
    intro r hr
    simp only [List.mem_map] at hr
    obtain ⟨r0, hr0, rfl⟩ := hr
    simpa using h r0 hr0

theorem getCol_mapCol_self (t : Table) (n : String) (f : Cell → Cell) (i : ℕ)
    (hi : colIdx t.header n = some i) (hrect : t.Rect) :
    (t.mapCol n f).getCol n = (t.getCol n).map f := by
  simp only [Table.mapCol, hi, Table.getCol, List.map_map]
  apply List.map_congr_left
  intro r hr
  simp only [Function.comp_apply]
  exact getD_set_self _ _ _ _ (by rw [hrect r hr]; exact colIdx_lt _ _ _ hi)

theorem getCol_mapCol_ne (t : Table) (n m : String) (f : Cell → Cell) (hmn : m ≠ n) :
    (t.mapCol n f).getCol m = t.getCol m := by
  cases hn : colIdx t.header n with
  | none => simp [Table.mapCol, hn]
  | some i =>
    cases hm : colIdx t.header m with
    | none => simp [Table.mapCol, hn, Table.getCol, hm]
    | some j =>
      have hij : i ≠ j := colIdx_ne_idx t.header n m i j hn hm (Ne.symm hmn)
      simp only [Table.mapCol, hn, Table.getCol, hm, List.map_map]
      apply List.map_congr_left
      intro r hr
      simp only [Function.comp_apply]
      exact getD_set_ne _ _ _ _ _ hij

theorem setCol_header_present (t : Table) (n : String) (vals : List Cell) (i : ℕ)
    (hi : colIdx t.header n = some i) : (t.setCol n vals).header = t.header := by
  simp [Table.setCol, hi]

theorem setCol_header_absent (t : Table) (n : String) (vals : List Cell)
    (h : colIdx t.header n = none) : (t.setCol n vals).header = t.header ++ [n] := by
  simp [Table.setCol, h]

theorem mem_setCol_header (t : Table) (n : String) (vals : List Cell) (m : String)
    (hm : m ∈ t.header) : m ∈ (t.setCol n vals).header := by
  cases hn : colIdx t.header n with
  | none => rw [setCol_header_absent t n vals hn]; exact List.mem_append.mpr (Or.inl hm)
  | some i => rwa [setCol_header_present t n vals i hn]

theorem setCol_mem_self (t : Table) (n : String) (vals : List Cell) :
    n ∈ (t.setCol n vals).header := by
  cases hn : colIdx t.header n with
  | none => rw [setCol_header_absent t n vals hn]; simp
  | some i => rw [setCol_header_present t n vals i hn]; exact colIdx_mem _ _ _ hn

theorem setCol_rows_length (t : Table) (n : String) (vals : List Cell)
    (hv : vals.length = t.rows.length) : (t.setCol n vals).rows.length = t.rows.length := by
  cases hn : colIdx t.header n <;> simp [Table.setCol, hn, List.length_zip, hv]

theorem setCol_rect (t : Table) (n : String) (vals : List Cell) (hrect : t.Rect) :
    (t.setCol n vals).Rect := by
  cases hn : colIdx t.header n with
  | some i =>
    intro r hr
    simp only [Table.setCol, hn, List.mem_map] at hr
    obtain ⟨rv, hrv, rfl⟩ := hr
    have h1 : rv.1 ∈ t.rows := (List.mem_zip hrv).1
    simp only [Table.setCol, hn, List.length_set]
    exact hrect rv.1 h1
  | none =>
    intro r hr
    simp only [Table.setCol, hn, List.mem_map] at hr
    obtain ⟨rv, hrv, rfl⟩ := hr
    have h1 : rv.1 ∈ t.rows := (List.mem_zip hrv).1
    simp [Table.setCol, hn, hrect rv.1 h1]

theorem getCol_setCol_self (t : Table) (n : String) (vals : List Cell)
    (hrect : t.Rect) (hv : vals.length = t.rows.length) :
    (t.setCol n vals).getCol n = vals := by
  cases hn : colIdx t.header n with
  | some i =>
    simp only [Table.setCol, hn, Table.getCol, List.map_map]
    have : ∀ rv ∈ t.rows.zip vals,
        ((fun r => r.getD i Cell.missing) ∘ fun rv => rv.1.set i rv.2) rv = Prod.snd rv := by
      intro rv hrv
      have h1 : rv.1 ∈ t.rows := (List.mem_zip hrv).1
      simp only [Function.comp_apply]
      exact getD_set_self _ _ _ _ (by rw [hrect rv.1 h1]; exact colIdx_lt _ _ _ hn)
    rw [List.map_congr_left this]
    exact List.map_snd_zip _ _ (le_of_eq hv)
  | none =>
    have hidx : colIdx (t.header ++ [n]) n = some t.header.length := colIdx_append_self _ _ hn
    simp only [Table.setCol, hn, Table.getCol, hidx, List.map_map]
    have : ∀ rv ∈ t.rows.zip vals,
        ((fun r => r.getD t.header.length Cell.missing) ∘ fun rv => rv.1 ++ [rv.2]) rv
          = Prod.snd rv := by
      intro rv hrv
      have h1 : rv.1 ∈ t.rows := (List.mem_zip hrv).1
      simp only [Function.comp_apply]
      rw [List.getD_append_right _ _ _ _ (le_of_eq (hrect rv.1 h1)), hrect rv.1 h1]
      simp
    rw [List.map_congr_left this]
    exact List.map_snd_zip _ _ (le_of_eq hv)

theorem getCol_setCol_ne (t : Table) (n m : String) (vals : List Cell) (hmn : m ≠ n)
    (hrect : t.Rect) (hv : vals.length = t.rows.length) :
    (t.setCol n vals).getCol m = t.getCol m := by
  cases hn : colIdx t.header n with
  | some i =>
    cases hm : colIdx t.header m with
    | none => simp [Table.setCol, hn, Table.getCol, hm]
    | some j =>
      have hij : i ≠ j := colIdx_ne_idx t.header n m i j hn hm (Ne.symm hmn)
      simp only [Table.setCol, hn, Table.getCol, hm, List.map_map]
      have : ∀ rv ∈ t.rows.zip vals,
          ((fun r => r.getD j Cell.missing) ∘ fun rv => rv.1.set i rv.2) rv
            = ((fun r => r.getD j Cell.missing) ∘ Prod.fst) rv := by
        intro rv hrv
        simp only [Function.comp_apply]
        exact getD_set_ne _ _ _ _ _ hij
      rw [List.map_congr_left this, ← List.map_map]
      rw [List.map_fst_zip _ _ (le_of_eq hv.symm)]
  | none =>
    cases hm : colIdx t.header m with
    | none =>
      have : colIdx (t.header ++ [n]) m = none := colIdx_append_none _ _ _ hm hmn
      simp [Table.setCol, hn, Table.getCol, hm, this]
    | some j =>
      have hj : colIdx (t.header ++ [n]) m = some j := colIdx_append_left _ _ _ _ hm
      simp only [Table.setCol, hn, Table.getCol, hj, hm, List.map_map]
      have : ∀ rv ∈ t.rows.zip vals,
          ((fun r => r.getD j Cell.missing) ∘ fun rv => rv.1 ++ [rv.2]) rv
            = ((fun r => r.getD j Cell.missing) ∘ Prod.fst) rv := by
        intro rv hrv
        have h1 : rv.1 ∈ t.rows := (List.mem_zip hrv).1
        simp only [Function.comp_apply]
        exact List.getD_append _ _ _ _ (by rw [hrect rv.1 h1]; exact colIdx_lt _ _ _ hm)
      rw [List.map_congr_left this, ← List.map_map]
      rw [List.map_fst_zip _ _ (le_of_eq hv.symm)]

theorem mem_dedupFirst (rows : List (List Cell)) (r : List Cell)
    (h : r ∈ dedupFirst rows) : r ∈ rows := by
  have key : ∀ (l : List (List Cell)) (acc : List (List Cell)),
      r ∈ l.foldl (fun acc r => if r ∈ acc then acc else acc ++ [r]) acc →
      r ∈ acc ∨ r ∈ l := by
    intro l
    induction l with
    | nil => intro acc h; exact Or.inl h
    | cons x xs ih =>
      intro acc h
      rw [List.foldl_cons] at h
      rcases ih _ h with h1 | h1
      · by_cases hx : x ∈ acc
        · rw [if_pos hx] at h1
          exact Or.inl h1
        · rw [if_neg hx] at h1
          rcases List.mem_append.mp h1 with h2 | h2
          · exact Or.inl h2
          · simp only [List.mem_singleton] at h2
            exact Or.inr (by simp [h2])
      · exact Or.inr (List.mem_cons_of_mem _ h1)
  rcases key rows [] h with h1 | h1
  · simp at h1
  · exact h1

theorem step_dedup_header (t : Table) : (step_dedup t).header = t.header := rfl

theorem step_dedup_rect (t : Table) (hrect : t.Rect) : (step_dedup t).Rect := by
  intro r hr
  exact hrect r (mem_dedupFirst _ _ hr)

theorem mem_getCol_step_dedup (t : Table) (n : String) (c : Cell)
    (h : c ∈ (step_dedup t).getCol n) : c ∈ t.getCol n := by
  unfold Table.getCol at h ⊢
  rw [step_dedup_header] at h
  cases hn : colIdx t.header n with
  | none => rw [hn] at h; simp at h
  | some i =>
    rw [hn] at h
    simp only [List.mem_map] at h ⊢
    obtain ⟨r, hr, rfl⟩ := h
    exact ⟨r, mem_dedupFirst _ _ hr, rfl⟩

theorem getCol_length (t : Table) (n : String) (i : ℕ) (hi : colIdx t.header n = some i) :
    (t.getCol n).length = t.rows.length := by
  simp [Table.getCol, hi]

theorem step_fill_price_header (t : Table) : (step_fill_price t).header = t.header := by
  unfold step_fill_price
  split
  · exact mapCol_header _ _ _
  · rfl

theorem step_fill_price_rect (t : Table) (h : t.Rect) : (step_fill_price t).Rect := by
  unfold step_fill_price
  split
  · exact mapCol_rect _ _ _ h
  · exact h

theorem step_fill_price_getCol_ne (t : Table) (m : String) (hm : m ≠ "Price") :
    (step_fill_price t).getCol m = t.getCol m := by
  unfold step_fill_price
  split
  · exact getCol_mapCol_ne _ _ _ _ hm
  · rfl

theorem step_fill_price_getCol_price (t : Table) (i : ℕ)
    (hi : colIdx t.header "Price" = some i) (hrect : t.Rect) :
    (step_fill_price t).getCol "Price"
      = (t.getCol "Price").map (fillMissingWith (medianOfCol (t.getCol "Price"))) := by
  unfold step_fill_price
  split
  · exact getCol_mapCol_self _ _ _ _ hi hrect
  · rename_i hcond
    have h0 : countMissing (t.getCol "Price") = 0 := Nat.eq_zero_of_not_pos hcond
    have hfe : List.filter Cell.isMissing (t.getCol "Price") = [] :=
      List.length_eq_zero.mp h0
    have : ∀ c ∈ t.getCol "Price",
        fillMissingWith (medianOfCol (t.getCol "Price")) c = c := by
      intro c hc
      cases c with
      | missing =>
        have : Cell.missing ∈ List.filter Cell.isMissing (t.getCol "Price") :=
          List.mem_filter.mpr ⟨hc, rfl⟩
        rw [hfe] at this
        simp at this
      | num q => rfl
      | str s => rfl
    have h2 : (t.getCol "Price").map (fillMissingWith (medianOfCol (t.getCol "Price")))
        = t.getCol "Price" := by
      rw [List.map_congr_left this]
      exact List.map_id _
    exact h2.symm

theorem step_fill_region_header (t : Table) : (step_fill_region t).header = t.header := by
  unfold step_fill_region
  split
  · exact mapCol_header _ _ _
  · rfl

theorem step_fill_region_rect (t : Table) (h : t.Rect) : (step_fill_region t).Rect := by
  unfold step_fill_region
  split
  · exact mapCol_rect _ _ _ h
  · exact h

theorem step_fill_region_getCol_ne (t : Table) (m : String) (hm : m ≠ "Region") :
    (step_fill_region t).getCol m = t.getCol m := by
  unfold step_fill_region
  split
  · exact getCol_mapCol_ne _ _ _ _ hm
  · rfl

theorem after_dedup_header (df : Table) : (after_dedup df).header = df.header := by
  unfold after_dedup
  rw [step_dedup_header, step_fill_region_header, step_fill_price_header]

theorem after_dedup_rect (df : Table) (h : df.Rect) : (after_dedup df).Rect :=
  step_dedup_rect _ (step_fill_region_rect _ (step_fill_price_rect _ h))

theorem after_dedup_qcol_mem (df : Table) (c : Cell)
    (hc : c ∈ (after_dedup df).getCol "Quantity") : c ∈ df.getCol "Quantity" := by
  unfold after_dedup at hc
  have hc2 := mem_getCol_step_dedup _ _ _ hc
  rwa [step_fill_region_getCol_ne _ _ (by decide),
    step_fill_price_getCol_ne _ _ (by decide)] at hc2

theorem after_dedup_pcol_mem (df : Table) (c : Cell)
    (hc : c ∈ (after_dedup df).getCol "Price") :
    c ∈ (step_fill_price df).getCol "Price" := by
  unfold after_dedup at hc
  have hc2 := mem_getCol_step_dedup _ _ _ hc
  rwa [step_fill_region_getCol_ne _ _ (by decide)] at hc2

theorem step_date_header (td : List Cell → List Cell) (t : Table) (i : ℕ)
    (hi : colIdx t.header "Order_Date" = some i) :
    (step_date td t).header = t.header := by
  unfold step_date
  exact setCol_header_present _ _ _ _ hi

theorem step_date_rect (td : List Cell → List Cell) (t : Table) (h : t.Rect) :
    (step_date td t).Rect := setCol_rect _ _ _ h

theorem step_date_vals_length (td : List Cell → List Cell)
    (hlen : ∀ col, (td col).length = col.length) (t : Table) (i : ℕ)
    (hi : colIdx t.header "Order_Date" = some i) :
    (td (t.getCol "Order_Date")).length = t.rows.length := by
  rw [hlen]
  exact getCol_length _ _ _ hi

theorem step_date_getCol_ne (td : List Cell → List Cell)
    (hlen : ∀ col, (td col).length = col.length) (t : Table) (i : ℕ)
    (hi : colIdx t.header "Order_Date" = some i) (hrect : t.Rect)
    (m : String) (hm : m ≠ "Order_Date") :
    (step_date td t).getCol m = t.getCol m := by
  unfold step_date
  exact getCol_setCol_ne _ _ _ _ hm hrect (step_date_vals_length td hlen t i hi)

theorem step_date_rows_length (td : List Cell → List Cell)
    (hlen : ∀ col, (td col).length = col.length) (t : Table) (i : ℕ)
    (hi : colIdx t.header "Order_Date" = some i) :
    (step_date td t).rows.length = t.rows.length := by
  unfold step_date
  exact setCol_rows_length _ _ _ (step_date_vals_length td hlen t i hi)

theorem step_clamp_header (t : Table) : (step_clamp t).header = t.header :=
  mapCol_header _ _ _

theorem step_clamp_rect (t : Table) (h : t.Rect) : (step_clamp t).Rect :=
  mapCol_rect _ _ _ h

theorem step_clamp_rows_length (t : Table) : (step_clamp t).rows.length = t.rows.length :=
  mapCol_rows_length _ _ _

theorem step_clamp_getCol_self (t : Table) (i : ℕ)
    (hi : colIdx t.header "Quantity" = some i) (hrect : t.Rect) :
    (step_clamp t).getCol "Quantity" = clampQuantityCol (t.getCol "Quantity") := by
  unfold step_clamp clampQuantityCol
  exact getCol_mapCol_self _ _ _ _ hi hrect

theorem step_clamp_getCol_ne (t : Table) (m : String) (hm : m ≠ "Quantity") :
    (step_clamp t).getCol m = t.getCol m := getCol_mapCol_ne _ _ _ _ hm

theorem after_clamp_header (td : List Cell → List Cell) (df : Table)
    (hOD : "Order_Date" ∈ df.header) : (after_clamp td df).header = df.header := by
  obtain ⟨di, hdi⟩ := colIdx_isSome_of_mem df.header "Order_Date" hOD
  have hdi3 : colIdx (after_dedup df).header "Order_Date" = some di := by
    rw [after_dedup_header]; exact hdi
  unfold after_clamp
  rw [step_clamp_header, step_date_header td _ di hdi3, after_dedup_header]

theorem after_clamp_rect (td : List Cell → List Cell) (df : Table) (h : df.Rect) :
    (after_clamp td df).Rect :=
  step_clamp_rect _ (step_date_rect _ _ (after_dedup_rect _ h))

theorem after_clamp_qcol (td : List Cell → List Cell)
    (hlen : ∀ col, (td col).length = col.length) (df : Table) (hrect : df.Rect)
    (hQ : "Quantity" ∈ df.header) (hOD : "Order_Date" ∈ df.header) :
    (after_clamp td df).getCol "Quantity"
      = clampQuantityCol ((after_dedup df).getCol "Quantity") := by
  obtain ⟨di, hdi⟩ := colIdx_isSome_of_mem df.header "Order_Date" hOD
  obtain ⟨qi, hqi⟩ := colIdx_isSome_of_mem df.header "Quantity" hQ
  have hdi3 : colIdx (after_dedup df).header "Order_Date" = some di := by
    rw [after_dedup_header]; exact hdi
  have hrect3 : (after_dedup df).Rect := after_dedup_rect _ hrect
  have hq4 : colIdx (step_date td (after_dedup df)).header "Quantity" = some qi := by
    rw [step_date_header td _ di hdi3, after_dedup_header]; exact hqi
  have hrect4 : (step_date td (after_dedup df)).Rect := step_date_rect _ _ hrect3
  unfold after_clamp
  rw [step_clamp_getCol_self _ qi hq4 hrect4,
    step_date_getCol_ne td hlen _ di hdi3 hrect3 _ (by decide)]

theorem after_clamp_pcol (td : List Cell → List Cell)
    (hlen : ∀ col, (td col).length = col.length) (df : Table) (hrect : df.Rect)
    (hOD : "Order_Date" ∈ df.header) :
    (after_clamp td df).getCol "Price" = (after_dedup df).getCol "Price" := by
  obtain ⟨di, hdi⟩ := colIdx_isSome_of_mem df.header "Order_Date" hOD
  have hdi3 : colIdx (after_dedup df).header "Order_Date" = some di := by
    rw [after_dedup_header]; exact hdi
  have hrect3 : (after_dedup df).Rect := after_dedup_rect _ hrect
  unfold after_clamp
  rw [step_clamp_getCol_ne _ _ (by decide),
    step_date_getCol_ne td hlen _ di hdi3 hrect3 _ (by decide)]

theorem mem_of_full (df : Table)
    (hfull : required_cols.all (fun c => df.header.contains c) = true)
    (c : String) (hc : c ∈ required_cols) : c ∈ df.header := by
  have := List.all_eq_true.mp hfull c hc
  exact (contains_iff _ _).mp (by simpa using this)

theorem step_sales_vals_length (t : Table) (qi pi : ℕ)
    (hqi : colIdx t.header "Quantity" = some qi)
    (hpi : colIdx t.header "Price" = some pi) :
    (List.zipWith mulCell (t.getCol "Quantity") (t.getCol "Price")).length
      = t.rows.length := by
  rw [List.length_zipWith, getCol_length _ _ _ hqi, getCol_length _ _ _ hpi]
  exact Nat.min_self _

theorem step_sales_getCol_sales (t : Table) (qi pi : ℕ)
    (hqi : colIdx t.header "Quantity" = some qi)
    (hpi : colIdx t.header "Price" = some pi) (hrect : t.Rect) :
    (step_sales t).getCol "Sales"
      = List.zipWith mulCell (t.getCol "Quantity") (t.getCol "Price") := by
  unfold step_sales
  exact getCol_setCol_self _ _ _ hrect (step_sales_vals_length t qi pi hqi hpi)

theorem step_sales_getCol_ne (t : Table) (qi pi : ℕ)
    (hqi : colIdx t.header "Quantity" = some qi)
    (hpi : colIdx t.header "Price" = some pi) (hrect : t.Rect)
    (m : String) (hm : m ≠ "Sales") :
    (step_sales t).getCol m = t.getCol m := by
  unfold step_sales
  exact getCol_setCol_ne _ _ _ _ hm hrect (step_sales_vals_length t qi pi hqi hpi)

theorem step_sales_rows_length (t : Table) (qi pi : ℕ)
    (hqi : colIdx t.header "Quantity" = some qi)
    (hpi : colIdx t.header "Price" = some pi) :
    (step_sales t).rows.length = t.rows.length := by
  unfold step_sales
  exact setCol_rows_length _ _ _ (step_sales_vals_length t qi pi hqi hpi)

theorem step_sales_rect (t : Table) (h : t.Rect) : (step_sales t).Rect :=
  setCol_rect _ _ _ h

theorem step_sales_mem_sales (t : Table) : "Sales" ∈ (step_sales t).header :=
  setCol_mem_self _ _ _

theorem step_sales_mem (t : Table) (m : String) (hm : m ∈ t.header) :
    m ∈ (step_sales t).header := mem_setCol_header _ _ _ _ hm

theorem step_coerce_eq (t : Table) (hq : "Quantity" ∈ t.header) (hp : "Price" ∈ t.header)
    (hs : "Sales" ∈ t.header) :
    step_coerce t = ((t.mapCol "Quantity" toNumericCell).mapCol "Price"
      toNumericCell).mapCol "Sales" toNumericCell := by
  have c1 : t.header.contains "Quantity" = true := (contains_iff _ _).mpr hq
  have c2 : (t.mapCol "Quantity" toNumericCell).header.contains "Price" = true := by
    rw [mapCol_header]; exact (contains_iff _ _).mpr hp
  have c3 : ((t.mapCol "Quantity" toNumericCell).mapCol "Price"
      toNumericCell).header.contains "Sales" = true := by
    rw [mapCol_header, mapCol_header]; exact (contains_iff _ _).mpr hs
  unfold step_coerce
  rw [List.foldl_cons, List.foldl_cons, List.foldl_cons, List.foldl_nil]
  rw [if_pos c1, if_pos c2, if_pos c3]

theorem step_coerce_getCol_q (t : Table) (hq : "Quantity" ∈ t.header)
    (hp : "Price" ∈ t.header) (hs : "Sales" ∈ t.header) (hrect : t.Rect) :
    (step_coerce t).getCol "Quantity" = (t.getCol "Quantity").map toNumericCell := by
  obtain ⟨qi, hqi⟩ := colIdx_isSome_of_mem t.header "Quantity" hq
  rw [step_coerce_eq t hq hp hs]
  rw [getCol_mapCol_ne _ _ _ _ (by decide), getCol_mapCol_ne _ _ _ _ (by decide)]
  exact getCol_mapCol_self _ _ _ _ hqi hrect

theorem step_coerce_getCol_p (t : Table) (hq : "Quantity" ∈ t.header)
    (hp : "Price" ∈ t.header) (hs : "Sales" ∈ t.header) (hrect : t.Rect) :
    (step_coerce t).getCol "Price" = (t.getCol "Price").map toNumericCell := by
  obtain ⟨pi, hpi⟩ := colIdx_isSome_of_mem (t.mapCol "Quantity" toNumericCell).header
    "Price" (by rw [mapCol_header]; exact hp)
  rw [step_coerce_eq t hq hp hs]
  rw [getCol_mapCol_ne _ _ _ _ (by decide)]
  rw [getCol_mapCol_self _ _ _ _ hpi (mapCol_rect _ _ _ hrect)]
  rw [getCol_mapCol_ne _ _ _ _ (by decide)]

theorem step_coerce_getCol_s (t : Table) (hq : "Quantity" ∈ t.header)
    (hp : "Price" ∈ t.header) (hs : "Sales" ∈ t.header) (hrect : t.Rect) :
    (step_coerce t).getCol "Sales" = (t.getCol "Sales").map toNumericCell := by
  obtain ⟨si, hsi⟩ := colIdx_isSome_of_mem ((t.mapCol "Quantity" toNumericCell).mapCol
    "Price" toNumericCell).header "Sales" (by rw [mapCol_header, mapCol_header]; exact hs)
  rw [step_coerce_eq t hq hp hs]
  rw [getCol_mapCol_self _ _ _ _ hsi (mapCol_rect _ _ _ (mapCol_rect _ _ _ hrect))]
  rw [getCol_mapCol_ne _ _ _ _ (by decide), getCol_mapCol_ne _ _ _ _ (by decide)]

theorem step_coerce_header (t : Table) : (step_coerce t).header = t.header := by
  unfold step_coerce
  rw [List.foldl_cons, List.foldl_cons, List.foldl_cons, List.foldl_nil]
  by_cases h1 : t.header.contains "Quantity" = true <;>
    by_cases h2 : ((if t.header.contains "Quantity" = true then
      t.mapCol "Quantity" toNumericCell else t)).header.contains "Price" = true <;>
      simp_all [mapCol_header] <;> split <;> simp_all [mapCol_header]

theorem step_coerce_rect (t : Table) (h : t.Rect) : (step_coerce t).Rect := by
  unfold step_coerce
  rw [List.foldl_cons, List.foldl_cons, List.foldl_cons, List.foldl_nil]
  split <;> split <;> split <;>
    first
      | exact h
      | exact mapCol_rect _ _ _ h
      | exact mapCol_rect _ _ _ (mapCol_rect _ _ _ h)
      | exact mapCol_rect _ _ _ (mapCol_rect _ _ _ (mapCol_rect _ _ _ h))

theorem getD_zipWith (f : Cell → Cell → Cell) (l l' : List Cell) (j : ℕ) (d : Cell)
    (hj : j < l.length) (hj' : j < l'.length) :
    (List.zipWith f l l').getD j d = f (l.getD j d) (l'.getD j d) := by
  rw [List.getD_eq_getElem _ _ (by rw [List.length_zipWith]; omega),
    List.getD_eq_getElem _ _ hj, List.getD_eq_getElem _ _ hj']
  exact List.getElem_zipWith

theorem getD_map_missing (f : Cell → Cell) (hf : f Cell.missing = Cell.missing)
    (l : List Cell) (j : ℕ) :
    (l.map f).getD j Cell.missing = f (l.getD j Cell.missing) := by
  conv_lhs => rw [← hf]
  exact List.getD_map _ _ _

theorem clampCell_isNumOrMissing (ub : Option ℚ) (c : Cell)
    (h : c.isNumOrMissing = true) : (clampCell ub c).isNumOrMissing = true := by
  cases c with
  | missing => cases ub <;> rfl
  | num v =>
    cases ub with
    | none => rfl
    | some u =>
      simp only [clampCell]
      split <;> rfl
  | str s => simp [Cell.isNumOrMissing] at h

theorem fillMissingWith_isNumOrMissing (m : Option ℚ) (c : Cell)
    (h : c.isNumOrMissing = true) : (fillMissingWith m c).isNumOrMissing = true := by
  cases c <;> cases m <;> simp_all [fillMissingWith, Cell.isNumOrMissing]

theorem mem_clampQuantityCol (col : List Cell) (c : Cell) (hc : c ∈ clampQuantityCol col) :
    ∃ c0 ∈ col, c = clampCell (upperBoundOf col) c0 := by
  unfold clampQuantityCol at hc
  obtain ⟨c0, hc0, rfl⟩ := List.mem_map.mp hc
  exact ⟨c0, hc0, rfl⟩

theorem clean_main_cols (toDatetime : List Cell → List Cell)
    (hlen : ∀ col, (toDatetime col).length = col.length)
    (df : Table) (hrect : df.Rect)
    (hfull : required_cols.all (fun c => df.header.contains c) = true) :
    "Sales" ∈ (basic_data_cleaning toDatetime df).header ∧
    (basic_data_cleaning toDatetime df).getCol "Quantity"
      = ((after_clamp toDatetime df).getCol "Quantity").map toNumericCell ∧
    (basic_data_cleaning toDatetime df).getCol "Price"
      = ((after_clamp toDatetime df).getCol "Price").map toNumericCell ∧
    (basic_data_cleaning toDatetime df).getCol "Sales"
      = (List.zipWith mulCell ((after_clamp toDatetime df).getCol "Quantity")
          ((after_clamp toDatetime df).getCol "Price")).map toNumericCell ∧
    ((after_clamp toDatetime df).getCol "Quantity").length
      = (after_clamp toDatetime df).rows.length ∧
    ((after_clamp toDatetime df).getCol "Price").length
      = (after_clamp toDatetime df).rows.length := by
  have hQ : "Quantity" ∈ df.header := mem_of_full df hfull _ (by decide)
  have hP : "Price" ∈ df.header := mem_of_full df hfull _ (by decide)
  have hOD : "Order_Date" ∈ df.header := mem_of_full df hfull _ (by decide)
  set t5 := after_clamp toDatetime df with ht5
  have h5h : t5.header = df.header := after_clamp_header toDatetime df hOD
  have h5r : t5.Rect := after_clamp_rect toDatetime df hrect
  have hQ5 : "Quantity" ∈ t5.header := by rw [h5h]; exact hQ
  have hP5 : "Price" ∈ t5.header := by rw [h5h]; exact hP
  obtain ⟨qi, hqi⟩ := colIdx_isSome_of_mem t5.header "Quantity" hQ5
  obtain ⟨pi, hpi⟩ := colIdx_isSome_of_mem t5.header "Price" hP5
  set t6 := step_sales t5 with ht6
  have h6r : t6.Rect := step_sales_rect _ h5r
  have hq6 : "Quantity" ∈ t6.header := step_sales_mem _ _ hQ5
  have hp6 : "Price" ∈ t6.header := step_sales_mem _ _ hP5
  have hs6 : "Sales" ∈ t6.header := step_sales_mem_sales _
  have e1 : basic_data_cleaning toDatetime df = step_coerce t6 := by
    unfold basic_data_cleaning
    rw [if_pos hfull]
  refine ⟨?_, ?_, ?_, ?_, ?_, ?_⟩
  · rw [e1, step_coerce_header]
    exact hs6
  · rw [e1, step_coerce_getCol_q t6 hq6 hp6 hs6 h6r,
      step_sales_getCol_ne t5 qi pi hqi hpi h5r _ (by decide)]
  · rw [e1, step_coerce_getCol_p t6 hq6 hp6 hs6 h6r,
      step_sales_getCol_ne t5 qi pi hqi hpi h5r _ (by decide)]
  · rw [e1, step_coerce_getCol_s t6 hq6 hp6 hs6 h6r,
      step_sales_getCol_sales t5 qi pi hqi hpi h5r]
  · exact getCol_length _ _ _ hqi
  · exact getCol_length _ _ _ hpi

theorem clean_qcol_pred (toDatetime : List Cell → List Cell)
    (hlen : ∀ col, (toDatetime col).length = col.length)
    (df : Table) (hrect : df.Rect)
    (hfull : required_cols.all (fun c => df.header.contains c) = true)
    (hq : ∀ c ∈ df.getCol "Quantity", c.isNumOrMissing = true) :
    ∀ c ∈ (after_clamp toDatetime df).getCol "Quantity", c.isNumOrMissing = true := by
  have hQ : "Quantity" ∈ df.header := mem_of_full df hfull _ (by decide)
  have hOD : "Order_Date" ∈ df.header := mem_of_full df hfull _ (by decide)
  intro c hc
  rw [after_clamp_qcol toDatetime hlen df hrect hQ hOD] at hc
  obtain ⟨c0, hc0, rfl⟩ := mem_clampQuantityCol _ _ hc
  exact clampCell_isNumOrMissing _ _ (hq c0 (after_dedup_qcol_mem df c0 hc0))

theorem clean_pcol_pred (toDatetime : List Cell → List Cell)
    (hlen : ∀ col, (toDatetime col).length = col.length)
    (df : Table) (hrect : df.Rect)
    (hfull : required_cols.all (fun c => df.header.contains c) = true)
    (hp : ∀ c ∈ df.getCol "Price", c.isNumOrMissing = true) :
    ∀ c ∈ (after_clamp toDatetime df).getCol "Price", c.isNumOrMissing = true := by
  have hP : "Price" ∈ df.header := mem_of_full df hfull _ (by decide)
  have hOD : "Order_Date" ∈ df.header := mem_of_full df hfull _ (by decide)
  obtain ⟨pi, hpi⟩ := colIdx_isSome_of_mem df.header "Price" hP
  intro c hc
  rw [after_clamp_pcol toDatetime hlen df hrect hOD] at hc
  have hc2 := after_dedup_pcol_mem df c hc
  rw [step_fill_price_getCol_price df pi hpi hrect] at hc2
  obtain ⟨c0, hc0, rfl⟩ := List.mem_map.mp hc2
  exact fillMissingWith_isNumOrMissing _ _ (hp c0 hc0)

theorem toNumericCell_num (q : ℚ) : toNumericCell (Cell.num q) = Cell.num q := rfl

theorem toNumericCell_missing : toNumericCell Cell.missing = Cell.missing := rfl

/-- C1: for every mapped table holding all six canonical fields (numeric
`Quantity` and `Price`), full-mode cleaning yields a `Sales` column where each
row with both operands present carries exactly their product, and each row
with a missing operand carries a missing `Sales`. -/
theorem C1_sales_column (toDatetime : List Cell → List Cell)
    (hlen : ∀ col, (toDatetime col).length = col.length)
    (df : Table) (hrect : df.Rect) (hnd : df.header.Nodup)
    (hfull : required_cols.all (fun c => df.header.contains c) = true)
    (hq : ∀ c ∈ df.getCol "Quantity", c.isNumOrMissing = true)
    (hp : ∀ c ∈ df.getCol "Price", c.isNumOrMissing = true) :
    "Sales" ∈ (basic_data_cleaning toDatetime df).header ∧
    ∀ j, j < ((basic_data_cleaning toDatetime df).getCol "Sales").length →
      (∀ a b : ℚ,
        ((basic_data_cleaning toDatetime df).getCol "Quantity").getD j Cell.missing
          = Cell.num a →
        ((basic_data_cleaning toDatetime df).getCol "Price").getD j Cell.missing
          = Cell.num b →
        ((basic_data_cleaning toDatetime df).getCol "Sales").getD j Cell.missing
          = Cell.num (a * b)) ∧
      ((((basic_data_cleaning toDatetime df).getCol "Quantity").getD j Cell.missing
          = Cell.missing ∨
        ((basic_data_cleaning toDatetime df).getCol "Price").getD j Cell.missing
          = Cell.missing) →
        ((basic_data_cleaning toDatetime df).getCol "Sales").getD j Cell.missing
          = Cell.missing) := by
  obtain ⟨hS, hQe, hPe, hSe, hQl, hPl⟩ := clean_main_cols toDatetime hlen df hrect hfull
  refine ⟨hS, ?_⟩
  intro j hj
  set q5 := (after_clamp toDatetime df).getCol "Quantity" with hq5
  set p5 := (after_clamp toDatetime df).getCol "Price" with hp5
  have hjq : j < q5.length := by
    rw [hSe] at hj
    rw [List.length_map, List.length_zipWith] at hj
    omega
  have hjp : j < p5.length := by
    rw [hSe] at hj
    rw [List.length_map, List.length_zipWith] at hj
    omega
  have hqj : (q5.getD j Cell.missing).isNumOrMissing = true :=
    clean_qcol_pred toDatetime hlen df hrect hfull hq _ (getD_mem _ _ _ hjq)
  have hpj : (p5.getD j Cell.missing).isNumOrMissing = true :=
    clean_pcol_pred toDatetime hlen df hrect hfull hp _ (getD_mem _ _ _ hjp)
  have eQ : ((basic_data_cleaning toDatetime df).getCol "Quantity").getD j Cell.missing
      = toNumericCell (q5.getD j Cell.missing) := by
    rw [hQe]
    exact getD_map_missing _ rfl _ _
  have eP : ((basic_data_cleaning toDatetime df).getCol "Price").getD j Cell.missing
      = toNumericCell (p5.getD j Cell.missing) := by
    rw [hPe]
    exact getD_map_missing _ rfl _ _
  have eS : ((basic_data_cleaning toDatetime df).getCol "Sales").getD j Cell.missing
      = toNumericCell (mulCell (q5.getD j Cell.missing) (p5.getD j Cell.missing)) := by
    rw [hSe, getD_map_missing _ rfl _ _, getD_zipWith _ _ _ _ _ hjq hjp]
  constructor
  · intro a b ha hb
    rw [eQ] at ha
    rw [eP] at hb
    rw [eS]
    cases hcq : q5.getD j Cell.missing with
    | missing => rw [hcq] at ha; simp [toNumericCell] at ha
    | str s => rw [hcq] at hqj; simp [Cell.isNumOrMissing] at hqj
    | num x =>
      cases hcp : p5.getD j Cell.missing with
      | missing => rw [hcp] at hb; simp [toNumericCell] at hb
      | str s => rw [hcp] at hpj; simp [Cell.isNumOrMissing] at hpj
      | num y =>
        rw [hcq, toNumericCell_num] at ha
        rw [hcp, toNumericCell_num] at hb
        cases ha
        cases hb
        rfl
  · intro hmiss
    rw [eS]
    rcases hmiss with hmq | hmp
    · rw [eQ] at hmq
      cases hcq : q5.getD j Cell.missing with
      | missing => cases p5.getD j Cell.missing <;> rfl
      | num x => rw [hcq] at hmq; simp [toNumericCell] at hmq
      | str s => rw [hcq] at hqj; simp [Cell.isNumOrMissing] at hqj
    · rw [eP] at hmp
      cases hcp : p5.getD j Cell.missing with
      | missing => cases q5.getD j Cell.missing <;> rfl
      | num y => rw [hcp] at hmp; simp [toNumericCell] at hmp
      | str s => rw [hcp] at hpj; simp [Cell.isNumOrMissing] at hpj

/-- Witness for C1 at a concrete two-row mapped sales table. -/
theorem C1_sales_column_witness :
    "Sales" ∈ (basic_data_cleaning id sampleFull).header ∧
    ∀ j, j < ((basic_data_cleaning id sampleFull).getCol "Sales").length →
      (∀ a b : ℚ,
        ((basic_data_cleaning id sampleFull).getCol "Quantity").getD j Cell.missing
          = Cell.num a →
        ((basic_data_cleaning id sampleFull).getCol "Price").getD j Cell.missing
          = Cell.num b →
        ((basic_data_cleaning id sampleFull).getCol "Sales").getD j Cell.missing
          = Cell.num (a * b)) ∧
      ((((basic_data_cleaning id sampleFull).getCol "Quantity").getD j Cell.missing
          = Cell.missing ∨
        ((basic_data_cleaning id sampleFull).getCol "Price").getD j Cell.missing
          = Cell.missing) →
        ((basic_data_cleaning id sampleFull).getCol "Sales").getD j Cell.missing
          = Cell.missing) :=
  C1_sales_column id (fun col => rfl) sampleFull (by decide) (by decide) (by decide)
    (by decide) (by decide)

theorem quantileLinear_isSome (xs : List ℚ) (q : ℚ) (h : xs ≠ []) :
    ∃ m, quantileLinear xs q = some m := by
  unfold quantileLinear
  cases hs : sortQ xs with
  | nil =>
    exfalso
    have hperm : (sortQ xs).Perm xs := List.perm_insertionSort (fun a b : ℚ => a ≤ b) xs
    rw [hs] at hperm
    exact h hperm.nil_eq.symm
  | cons a l => exact ⟨_, rfl⟩

theorem numsOf_ne_nil (col : List Cell) (c : Cell) (hc : c ∈ col)
    (hnm : c.isMissing = false) (hn : c.isNumOrMissing = true) : numsOf col ≠ [] := by
  cases c with
  | missing => simp [Cell.isMissing] at hnm
  | str s => simp [Cell.isNumOrMissing] at hn
  | num q =>
    apply List.ne_nil_of_mem (a := q)
    exact List.mem_filterMap.mpr ⟨Cell.num q, hc, rfl⟩

/-- C3: on a full-mode table with a numeric `Price` column holding at least
one non-missing value, the median exists, each missing `Price` entry is filled
with exactly that pre-fill median, the cleaned `Price` column has no missing
entry, and the spec scenario `[10, missing, 20, missing, 30]` cleans to
`[10, 20, 20, 20, 30]`. -/
theorem C3_price_fill (toDatetime : List Cell → List Cell)
    (hlen : ∀ col, (toDatetime col).length = col.length)
    (df : Table) (hrect : df.Rect) (hnd : df.header.Nodup)
    (hfull : required_cols.all (fun c => df.header.contains c) = true)
    (hp : ∀ c ∈ df.getCol "Price", c.isNumOrMissing = true)
    (hex : ∃ c ∈ df.getCol "Price", c.isMissing = false) :
    (∃ m, medianOfCol (df.getCol "Price") = some m) ∧
    (∀ m, medianOfCol (df.getCol "Price") = some m →
      ∀ j, j < (df.getCol "Price").length →
        (df.getCol "Price").getD j Cell.missing = Cell.missing →
        ((step_fill_price df).getCol "Price").getD j Cell.missing = Cell.num m) ∧
    (∀ c ∈ (basic_data_cleaning toDatetime df).getCol "Price", c.isMissing = false) ∧
    (basic_data_cleaning id scenarioCTable).getCol "Price"
      = [Cell.num 10, Cell.num 20, Cell.num 20, Cell.num 20, Cell.num 30] := by
  have hP : "Price" ∈ df.header := mem_of_full df hfull _ (by decide)
  have hOD : "Order_Date" ∈ df.header := mem_of_full df hfull _ (by decide)
  obtain ⟨pi, hpi⟩ := colIdx_isSome_of_mem df.header "Price" hP
  obtain ⟨c, hcmem, hcnm⟩ := hex
  have hmed : ∃ m, medianOfCol (df.getCol "Price") = some m :=
    quantileLinear_isSome _ _ (numsOf_ne_nil _ c hcmem hcnm (hp c hcmem))
  refine ⟨hmed, ?_, ?_, ?_⟩
  · intro m hm j hj hmiss
    rw [step_fill_price_getCol_price df pi hpi hrect]
    rw [List.getD_eq_getElem _ _ (by simpa using hj), List.getElem_map]
    rw [← List.getD_eq_getElem _ Cell.missing hj, hmiss, hm]
    rfl
  · obtain ⟨m, hm⟩ := hmed
    intro cc hcc
    have e := (clean_main_cols toDatetime hlen df hrect hfull).2.2.1
    rw [after_clamp_pcol toDatetime hlen df hrect hOD] at e
    rw [e] at hcc
    obtain ⟨c2, hc2, rfl⟩ := List.mem_map.mp hcc
    have hc3 := after_dedup_pcol_mem df c2 hc2
    rw [step_fill_price_getCol_price df pi hpi hrect] at hc3
    obtain ⟨c0, hc0, rfl⟩ := List.mem_map.mp hc3
    cases c0 with
    | missing =>
      rw [hm]
      rfl
    | num q => rfl
    | str s =>
      have := hp _ hc0
      simp [Cell.isNumOrMissing] at this
  · have hcol : scenarioCTable.getCol "Price"
        = [Cell.num 10, Cell.missing, Cell.num 20, Cell.missing, Cell.num 30] := by decide
    have hm20 : medianOfCol (scenarioCTable.getCol "Price") = some 20 := by
      rw [hcol]
      norm_num [medianOfCol, numsOf, Cell.toNum?, quantileLinear, sortQ, interpolate,
        List.insertionSort, List.orderedInsert]
    have h1 : step_fill_price scenarioCTable =
        ⟨["Order_ID", "Product", "Quantity", "Price", "Order_Date", "Region"],
         [[Cell.num 1, Cell.str "A", Cell.num 1, Cell.num 10, Cell.str "d1", Cell.str "N"],
          [Cell.num 2, Cell.str "A", Cell.num 1, Cell.num 20, Cell.str "d2", Cell.str "N"],
          [Cell.num 3, Cell.str "A", Cell.num 1, Cell.num 20, Cell.str "d3", Cell.str "N"],
          [Cell.num 4, Cell.str "A", Cell.num 1, Cell.num 20, Cell.str "d4", Cell.str "N"],
          [Cell.num 5, Cell.str "A", Cell.num 1, Cell.num 30, Cell.str "d5", Cell.str "N"]]⟩ := by
      unfold step_fill_price
      rw [if_pos (by decide), hm20]
      decide
    have hd : after_dedup scenarioCTable =
        ⟨["Order_ID", "Product", "Quantity", "Price", "Order_Date", "Region"],
         [[Cell.num 1, Cell.str "A", Cell.num 1, Cell.num 10, Cell.str "d1", Cell.str "N"],
          [Cell.num 2, Cell.str "A", Cell.num 1, Cell.num 20, Cell.str "d2", Cell.str "N"],
          [Cell.num 3, Cell.str "A", Cell.num 1, Cell.num 20, Cell.str "d3", Cell.str "N"],
          [Cell.num 4, Cell.str "A", Cell.num 1, Cell.num 20, Cell.str "d4", Cell.str "N"],
          [Cell.num 5, Cell.str "A", Cell.num 1, Cell.num 30, Cell.str "d5", Cell.str "N"]]⟩ := by
      unfold after_dedup
      rw [h1]
      decide
    have e := (clean_main_cols id (fun col => rfl) scenarioCTable (by decide) (by decide)).2.2.1
    rw [after_clamp_pcol id (fun col => rfl) scenarioCTable (by decide) (by decide)] at e
    rw [e, hd]
    decide

/-- Witness for C3 at the scenario C table. -/
theorem C3_price_fill_witness :
    (∃ m, medianOfCol (scenarioCTable.getCol "Price") = some m) ∧
    (∀ m, medianOfCol (scenarioCTable.getCol "Price") = some m →
      ∀ j, j < (scenarioCTable.getCol "Price").length →
        (scenarioCTable.getCol "Price").getD j Cell.missing = Cell.missing →
        ((step_fill_price scenarioCTable).getCol "Price").getD j Cell.missing
          = Cell.num m) ∧
    (∀ c ∈ (basic_data_cleaning id scenarioCTable).getCol "Price",
      c.isMissing = false) ∧
    (basic_data_cleaning id scenarioCTable).getCol "Price"
      = [Cell.num 10, Cell.num 20, Cell.num 20, Cell.num 20, Cell.num 30] :=
  C3_price_fill id (fun col => rfl) scenarioCTable (by decide) (by decide) (by decide)
    (by decide) (by decide)

theorem clampCell_missing (ub : Option ℚ) : clampCell ub Cell.missing = Cell.missing := by
  cases ub <;> rfl

theorem clampCell_str (ub : Option ℚ) (s : String) :
    clampCell ub (Cell.str s) = Cell.str s := by
  cases ub <;> rfl

/-- C2: the outlier step of full-mode cleaning rewrites the `Quantity` column
through the IQR clamp: linear-interpolation quantiles give the bound
`Q3 + 1.5 * IQR`, values strictly above it become the bound, no row is removed
and no lower bound is applied; on `[1, 2, 3, 4, 100]` the quantiles are 2 and
4, the bound is 7, and the output is `[1, 2, 3, 4, 7]`. -/
theorem C2_outlier_clamp (t : Table) (i : ℕ)
    (hi : colIdx t.header "Quantity" = some i) (hrect : t.Rect) :
    (step_clamp t).getCol "Quantity" = clampQuantityCol (t.getCol "Quantity") ∧
    (step_clamp t).rows.length = t.rows.length ∧
    (∀ col : List Cell, (clampQuantityCol col).length = col.length) ∧
    (∀ col : List Cell, ∀ j : ℕ, ∀ v u : ℚ,
      col.getD j Cell.missing = Cell.num v → upperBoundOf col = some u →
      (clampQuantityCol col).getD j Cell.missing
        = (if u < v then Cell.num u else Cell.num v)) ∧
    quantileLinear [1, 2, 3, 4, 100] (1 / 4) = some 2 ∧
    quantileLinear [1, 2, 3, 4, 100] (3 / 4) = some 4 ∧
    upperBoundOf [Cell.num 1, Cell.num 2, Cell.num 3, Cell.num 4, Cell.num 100]
      = some 7 ∧
    clampQuantityCol [Cell.num 1, Cell.num 2, Cell.num 3, Cell.num 4, Cell.num 100]
      = [Cell.num 1, Cell.num 2, Cell.num 3, Cell.num 4, Cell.num 7] := by
  refine ⟨step_clamp_getCol_self t i hi hrect, step_clamp_rows_length t, ?_, ?_, ?_, ?_, ?_, ?_⟩
  · intro col
    exact List.length_map _ _
  · intro col j v u hv hu
    have hj : j < col.length := by
      by_contra hj
      rw [List.getD_eq_default _ _ (Nat.le_of_not_lt hj)] at hv
      exact Cell.noConfusion hv
    unfold clampQuantityCol
    rw [getD_map_missing _ (clampCell_missing _) _ _, hv, hu]
    rfl
  · norm_num [quantileLinear, sortQ, interpolate, List.insertionSort, List.orderedInsert]
  · norm_num [quantileLinear, sortQ, interpolate, List.insertionSort, List.orderedInsert]
    simp
  · norm_num [upperBoundOf, numsOf, Cell.toNum?, quantileLinear, sortQ, interpolate,
      List.insertionSort, List.orderedInsert]
    simp
    norm_num
  · norm_num [clampQuantityCol, upperBoundOf, numsOf, Cell.toNum?, quantileLinear, sortQ,
      interpolate, List.insertionSort, List.orderedInsert, clampCell]
    simp
    norm_num

/-- Witness for C2 at a concrete table. -/
theorem C2_outlier_clamp_witness :
    (step_clamp sampleFull).getCol "Quantity"
      = clampQuantityCol (sampleFull.getCol "Quantity") ∧
    (step_clamp sampleFull).rows.length = sampleFull.rows.length ∧
    (∀ col : List Cell, (clampQuantityCol col).length = col.length) ∧
    (∀ col : List Cell, ∀ j : ℕ, ∀ v u : ℚ,
      col.getD j Cell.missing = Cell.num v → upperBoundOf col = some u →
      (clampQuantityCol col).getD j Cell.missing
        = (if u < v then Cell.num u else Cell.num v)) ∧
    quantileLinear [1, 2, 3, 4, 100] (1 / 4) = some 2 ∧
    quantileLinear [1, 2, 3, 4, 100] (3 / 4) = some 4 ∧
    upperBoundOf [Cell.num 1, Cell.num 2, Cell.num 3, Cell.num 4, Cell.num 100]
      = some 7 ∧
    clampQuantityCol [Cell.num 1, Cell.num 2, Cell.num 3, Cell.num 4, Cell.num 100]
      = [Cell.num 1, Cell.num 2, Cell.num 3, Cell.num 4, Cell.num 7] :=
  C2_outlier_clamp sampleFull 2 (by decide) (by decide)

theorem filterMap_toNum_all_missing (col : List Cell)
    (h : ∀ c ∈ col, c = Cell.missing) : numsOf col = [] := by
  unfold numsOf
  induction col with
  | nil => rfl
  | cons c cs ih =>
    have hc : c = Cell.missing := h c (by simp)
    subst hc
    rw [List.filterMap_cons]
    simp only [Cell.toNum?]
    exact ih (fun c hc => h c (by simp [hc]))

theorem upperBoundOf_all_missing (col : List Cell)
    (h : ∀ c ∈ col, c = Cell.missing) : upperBoundOf col = none := by
  unfold upperBoundOf
  rw [filterMap_toNum_all_missing col h]
  rfl

theorem clampCell_none (c : Cell) : clampCell none c = c := by
  cases c <;> rfl

/-- C10: the outlier step touches only numeric `Quantity` values strictly
above the computed bound: missing entries stay missing, and a column whose
values are all missing (undefined quantiles) passes through unchanged — the
step is total and never fails. -/
theorem C10_clamp_safety :
    (∀ col : List Cell, ∀ j : ℕ, col.getD j Cell.missing = Cell.missing →
      (clampQuantityCol col).getD j Cell.missing = Cell.missing) ∧
    (∀ col : List Cell, (∀ c ∈ col, c = Cell.missing) → clampQuantityCol col = col) ∧
    (∀ col : List Cell, ∀ j : ℕ, ∀ c : Cell, col.getD j Cell.missing = c →
      (clampQuantityCol col).getD j Cell.missing ≠ c →
      ∃ v u : ℚ, c = Cell.num v ∧ upperBoundOf col = some u ∧ u < v) ∧
    (∀ t : Table, ∀ i : ℕ, colIdx t.header "Quantity" = some i → t.Rect →
      (∀ c ∈ t.getCol "Quantity", c = Cell.missing) →
      (step_clamp t).getCol "Quantity" = t.getCol "Quantity") := by
  have hmissing : ∀ col : List Cell, ∀ j : ℕ, col.getD j Cell.missing = Cell.missing →
      (clampQuantityCol col).getD j Cell.missing = Cell.missing := by
    intro col j hm
    unfold clampQuantityCol
    rw [getD_map_missing _ (clampCell_missing _) _ _, hm, clampCell_missing]
  have hallmissing : ∀ col : List Cell, (∀ c ∈ col, c = Cell.missing) →
      clampQuantityCol col = col := by
    intro col h
    unfold clampQuantityCol
    rw [upperBoundOf_all_missing col h]
    have : ∀ c ∈ col, clampCell none c = c := fun c _ => clampCell_none c
    rw [List.map_congr_left this]
    exact List.map_id _
  refine ⟨hmissing, hallmissing, ?_, ?_⟩
  · intro col j c hc hne
    by_cases hj : j < col.length
    · unfold clampQuantityCol at hne
      rw [getD_map_missing _ (clampCell_missing _) _ _, hc] at hne
      cases c with
      | missing => exact absurd (clampCell_missing _) hne
      | str s => exact absurd (clampCell_str _ _) hne
      | num v =>
        cases hub : upperBoundOf col with
        | none =>
          rw [hub] at hne
          exact absurd (clampCell_none _) hne
        | some u =>
          rw [hub] at hne
          by_cases hlt : u < v
          · exact ⟨v, u, rfl, rfl, hlt⟩
          · exfalso
            apply hne
            simp only [clampCell, if_neg hlt]
    · exfalso
      apply hne
      rw [List.getD_eq_default _ _ (Nat.le_of_not_lt hj)] at hc
      rw [List.getD_eq_default _ _
        (by unfold clampQuantityCol; rw [List.length_map]; exact Nat.le_of_not_lt hj)]
      exact hc.symm ▸ rfl
  · intro t i hi hrect hall
    rw [step_clamp_getCol_self t i hi hrect]
    exact hallmissing _ hall

/-- Witness for C10: a fully missing column is unchanged, and a missing entry
stays missing. -/
theorem C10_clamp_safety_witness :
    clampQuantityCol [Cell.missing, Cell.missing] = [Cell.missing, Cell.missing] ∧
    (clampQuantityCol [Cell.missing, Cell.num 3]).getD 0 Cell.missing = Cell.missing :=
  ⟨C10_clamp_safety.2.1 [Cell.missing, Cell.missing] (by decide),
   C10_clamp_safety.1 [Cell.missing, Cell.num 3] 0 (by decide)⟩

theorem clamp_nonincreasing (col : List Cell) (j : ℕ) (v' : ℚ)
    (h : (clampQuantityCol col).getD j Cell.missing = Cell.num v') :
    ∃ v : ℚ, col.getD j Cell.missing = Cell.num v ∧ v' ≤ v := by
  by_cases hj : j < col.length
  · unfold clampQuantityCol at h
    rw [getD_map_missing _ (clampCell_missing _) _ _] at h
    cases hcj : col.getD j Cell.missing with
    | missing => rw [hcj, clampCell_missing] at h; exact Cell.noConfusion h
    | str s => rw [hcj, clampCell_str] at h; exact Cell.noConfusion h
    | num v =>
      rw [hcj] at h
      cases hub : upperBoundOf col with
      | none =>
        rw [hub, clampCell_none] at h
        injection h with hv
        exact ⟨v, rfl, le_of_eq hv.symm⟩
      | some u =>
        rw [hub] at h
        by_cases hlt : u < v
        · rw [show clampCell (some u) (Cell.num v) = Cell.num u from by
            simp only [clampCell, if_pos hlt]] at h
          injection h with hu
          exact ⟨v, rfl, le_of_lt (hu ▸ hlt)⟩
        · rw [show clampCell (some u) (Cell.num v) = Cell.num v from by
            simp only [clampCell, if_neg hlt]] at h
          injection h with hv
          exact ⟨v, rfl, le_of_eq hv.symm⟩
  · rw [List.getD_eq_default _ _
      (by unfold clampQuantityCol; rw [List.length_map]; exact Nat.le_of_not_lt hj)] at h
    exact Cell.noConfusion h

/-- C6 counterexample: the clamp is not idempotent.  On Quantity values
`[0, 0, 0, 16]` the bound is `Q3 + 1.5 * IQR = 4 + 6 = 10`, so one application
gives `[0, 0, 0, 10]`; recomputing on the output gives the bound `6.25`, so a
second application clamps again. -/
theorem C6_counterexample :
    clampQuantityCol (clampQuantityCol [Cell.num 0, Cell.num 0, Cell.num 0, Cell.num 16])
      ≠ clampQuantityCol [Cell.num 0, Cell.num 0, Cell.num 0, Cell.num 16] := by
  have h1 : clampQuantityCol [Cell.num 0, Cell.num 0, Cell.num 0, Cell.num 16]
      = [Cell.num 0, Cell.num 0, Cell.num 0, Cell.num 10] := by
    norm_num [clampQuantityCol, upperBoundOf, numsOf, Cell.toNum?, quantileLinear, sortQ,
      interpolate, List.insertionSort, List.orderedInsert, clampCell]
    simp
    norm_num
  have h2 : clampQuantityCol [Cell.num 0, Cell.num 0, Cell.num 0, Cell.num 10]
      = [Cell.num 0, Cell.num 0, Cell.num 0, Cell.num (25 / 4)] := by
    norm_num [clampQuantityCol, upperBoundOf, numsOf, Cell.toNum?, quantileLinear, sortQ,
      interpolate, List.insertionSort, List.orderedInsert, clampCell]
    simp
    norm_num
  rw [h1, h2]
  intro h
  simp only [List.cons.injEq, Cell.num.injEq] at h
  norm_num at h

/-- C6 as amended: the clamp is not idempotent in general; what holds is that
a column the clamp leaves unchanged is also unchanged by reapplication, a
second application never increases any numeric value, and missing entries are
exactly preserved. -/
theorem C6_clamp_reapply :
    (∀ col : List Cell, clampQuantityCol col = col →
      clampQuantityCol (clampQuantityCol col) = clampQuantityCol col) ∧
    (∀ col : List Cell, ∀ j : ℕ, ∀ v' : ℚ,
      (clampQuantityCol (clampQuantityCol col)).getD j Cell.missing = Cell.num v' →
      ∃ v : ℚ, (clampQuantityCol col).getD j Cell.missing = Cell.num v ∧ v' ≤ v) ∧
    (∀ col : List Cell, ∀ j : ℕ,
      ((clampQuantityCol col).getD j Cell.missing = Cell.missing ↔
        col.getD j Cell.missing = Cell.missing)) := by
  refine ⟨?_, ?_, ?_⟩
  · intro col h
    rw [h]
    exact h
  · intro col j v' h
    exact clamp_nonincreasing _ _ _ h
  · intro col j
    constructor
    · intro h
      by_cases hj : j < col.length
      · unfold clampQuantityCol at h
        rw [getD_map_missing _ (clampCell_missing _) _ _] at h
        cases hcj : col.getD j Cell.missing with
        | missing => rfl
        | str s => rw [hcj, clampCell_str] at h; exact Cell.noConfusion h
        | num v =>
          rw [hcj] at h
          exfalso
          cases hub : upperBoundOf col with
          | none => rw [hub, clampCell_none] at h; exact Cell.noConfusion h
          | some u =>
            rw [hub] at h
            by_cases hlt : u < v
            · rw [show clampCell (some u) (Cell.num v) = Cell.num u from by
                simp only [clampCell, if_pos hlt]] at h
              exact Cell.noConfusion h
            · rw [show clampCell (some u) (Cell.num v) = Cell.num v from by
                simp only [clampCell, if_neg hlt]] at h
              exact Cell.noConfusion h
      · rw [List.getD_eq_default _ _ (Nat.le_of_not_lt hj)]
    · intro h
      unfold clampQuantityCol
      rw [getD_map_missing _ (clampCell_missing _) _ _, h, clampCell_missing]

/-- Witness for C6 as amended: a column the clamp fixes stays fixed, and the
second application on the counterexample column is pointwise no larger. -/
theorem C6_clamp_reapply_witness :
    clampQuantityCol (clampQuantityCol [Cell.num 1]) = clampQuantityCol [Cell.num 1] ∧
    ((clampQuantityCol [Cell.num 0, Cell.num 0, Cell.num 0, Cell.num 16]).getD 3
        Cell.missing = Cell.missing ↔
      ([Cell.num 0, Cell.num 0, Cell.num 0, Cell.num 16] : List Cell).getD 3
        Cell.missing = Cell.missing) :=
  ⟨C6_clamp_reapply.1 [Cell.num 1] (by
      norm_num [clampQuantityCol, upperBoundOf, numsOf, Cell.toNum?, quantileLinear, sortQ,
        interpolate, List.insertionSort, List.orderedInsert, clampCell]),
   C6_clamp_reapply.2.2 [Cell.num 0, Cell.num 0, Cell.num 0, Cell.num 16] 3⟩

theorem charListLe_total (x y : List Char) :
    charListLe x y = true ∨ charListLe y x = true := by
  induction x generalizing y with
  | nil => left; rfl
  | cons a as ih =>
    cases y with
    | nil => right; rfl
    | cons b bs =>
      by_cases h1 : a.toNat < b.toNat
      · left; simp [charListLe, h1]
      · by_cases h2 : b.toNat < a.toNat
        · right; simp [charListLe, h2]
        · rcases ih bs with h | h
          · left; simp [charListLe, h1, h2, h]
          · right; simp [charListLe, h1, h2, h]

theorem charListLe_trans (x y z : List Char) (hxy : charListLe x y = true)
    (hyz : charListLe y z = true) : charListLe x z = true := by
  induction x generalizing y z with
  | nil => rfl
  | cons a as ih =>
    cases y with
    | nil => simp [charListLe] at hxy
    | cons b bs =>
      cases z with
      | nil => simp [charListLe] at hyz
      | cons c cs =>
        by_cases hab : a.toNat < b.toNat
        · by_cases hbc : b.toNat < c.toNat
          · have hac : a.toNat < c.toNat := lt_trans hab hbc
            simp [charListLe, hac]
          · by_cases hcb : c.toNat < b.toNat
            · simp [charListLe, hbc, hcb] at hyz
            · have hac : a.toNat < c.toNat := by omega
              simp [charListLe, hac]
        · by_cases hba : b.toNat < a.toNat
          · simp [charListLe, hab, hba] at hxy
          · simp only [charListLe, if_neg hab, if_neg hba] at hxy
            by_cases hbc : b.toNat < c.toNat
            · have hac : a.toNat < c.toNat := by omega
              simp [charListLe, hac]
            · by_cases hcb : c.toNat < b.toNat
              · simp [charListLe, hbc, hcb] at hyz
              · simp only [charListLe, if_neg hbc, if_neg hcb] at hyz
                have hnac : ¬ a.toNat < c.toNat := by omega
                have hnca : ¬ c.toNat < a.toNat := by omega
                simp only [charListLe, if_neg hnac, if_neg hnca]
                exact ih bs cs hxy hyz

theorem sortStrings_sorted (l : List String) : List.Sorted strLe (sortStrings l) :=
  @List.sorted_insertionSort String strLe _
    ⟨fun a b => charListLe_total a.data b.data⟩
    ⟨fun a b c => charListLe_trans a.data b.data c.data⟩ l

theorem sortStrings_perm (l : List String) : (sortStrings l).Perm l :=
  List.perm_insertionSort strLe l

theorem mem_unionCols (dfs : List Table) (c : String) :
    c ∈ unionCols dfs ↔ ∃ df ∈ dfs, c ∈ df.header := by
  unfold unionCols
  rw [(sortStrings_perm _).mem_iff, List.mem_dedup, List.mem_flatten]
  constructor
  · rintro ⟨l, hl, hc⟩
    obtain ⟨df, hdf, rfl⟩ := List.mem_map.mp hl
    exact ⟨df, hdf, hc⟩
  · rintro ⟨df, hdf, hc⟩
    exact ⟨df.header, List.mem_map_of_mem _ hdf, hc⟩

theorem unionCols_nodup (dfs : List Table) : (unionCols dfs).Nodup := by
  unfold unionCols
  exact ((sortStrings_perm _).nodup_iff).mpr (List.nodup_dedup _)

theorem reindexRow_getD (cols : List String) (df : Table) (r : List Cell) (j : ℕ)
    (hj : j < cols.length) :
    (reindexRow cols df r).getD j Cell.missing
      = (match colIdx df.header (cols.getD j "") with
         | some i => r.getD i Cell.missing
         | none => Cell.missing) := by
  unfold reindexRow
  rw [List.getD_eq_getElem _ _ (by simpa using hj), List.getElem_map,
    ← List.getD_eq_getElem cols "" hj]

/-- C4: the full-union merge tier concatenates every input table reindexed to
the lexicographically sorted union of the labels: the output row count is the
exact sum of the input row counts, the output labels are the sorted,
duplicate-free union, rows keep input-table order then row order, cells of a
label absent from a table are the missing sentinel, and cells of a present
label keep their value. -/
theorem C4_full_union_merge (dfs : List Table) :
    (full_union_merge dfs).rows.length = (dfs.map (fun df => df.rows.length)).sum ∧
    List.Sorted strLe (full_union_merge dfs).header ∧
    (full_union_merge dfs).header.Nodup ∧
    (∀ c : String, c ∈ (full_union_merge dfs).header ↔ ∃ df ∈ dfs, c ∈ df.header) ∧
    (full_union_merge dfs).rows
      = (dfs.map (fun df => df.rows.map (reindexRow (unionCols dfs) df))).flatten ∧
    (∀ df ∈ dfs, ∀ r ∈ df.rows, ∀ j : ℕ, j < (unionCols dfs).length →
      colIdx df.header ((unionCols dfs).getD j "") = none →
      (reindexRow (unionCols dfs) df r).getD j Cell.missing = Cell.missing) ∧
    (∀ df ∈ dfs, ∀ r ∈ df.rows, ∀ j i : ℕ, j < (unionCols dfs).length →
      colIdx df.header ((unionCols dfs).getD j "") = some i →
      (reindexRow (unionCols dfs) df r).getD j Cell.missing = r.getD i Cell.missing) := by
  refine ⟨?_, sortStrings_sorted _, unionCols_nodup _, mem_unionCols _, rfl, ?_, ?_⟩
  · unfold full_union_merge
    rw [List.length_flatten, List.map_map]
    congr 1
    apply List.map_congr_left
    intro df hdf
    simp [addMissingAndReindex]
  · intro df hdf r hr j hj hnone
    rw [reindexRow_getD _ _ _ _ hj, hnone]
  · intro df hdf r hr j i hj hsome
    rw [reindexRow_getD _ _ _ _ hj, hsome]

/-- Witness for C4 at the scenario D pair of tables. -/
theorem C4_full_union_merge_witness :
    (full_union_merge [⟨["X", "Y"], [[Cell.num 1, Cell.num 2]]⟩,
        ⟨["Y", "Z"], [[Cell.num 3, Cell.num 4]]⟩]).rows.length
      = (([⟨["X", "Y"], [[Cell.num 1, Cell.num 2]]⟩,
          ⟨["Y", "Z"], [[Cell.num 3, Cell.num 4]]⟩] : List Table).map
          (fun df => df.rows.length)).sum ∧
    List.Sorted strLe (full_union_merge [⟨["X", "Y"], [[Cell.num 1, Cell.num 2]]⟩,
        ⟨["Y", "Z"], [[Cell.num 3, Cell.num 4]]⟩]).header ∧
    (full_union_merge [⟨["X", "Y"], [[Cell.num 1, Cell.num 2]]⟩,
        ⟨["Y", "Z"], [[Cell.num 3, Cell.num 4]]⟩]).header.Nodup ∧
    (∀ c : String, c ∈ (full_union_merge [⟨["X", "Y"], [[Cell.num 1, Cell.num 2]]⟩,
          ⟨["Y", "Z"], [[Cell.num 3, Cell.num 4]]⟩]).header ↔
        ∃ df ∈ ([⟨["X", "Y"], [[Cell.num 1, Cell.num 2]]⟩,
          ⟨["Y", "Z"], [[Cell.num 3, Cell.num 4]]⟩] : List Table), c ∈ df.header) ∧
    (full_union_merge [⟨["X", "Y"], [[Cell.num 1, Cell.num 2]]⟩,
        ⟨["Y", "Z"], [[Cell.num 3, Cell.num 4]]⟩]).rows
      = (([⟨["X", "Y"], [[Cell.num 1, Cell.num 2]]⟩,
          ⟨["Y", "Z"], [[Cell.num 3, Cell.num 4]]⟩] : List Table).map
          (fun df => df.rows.map (reindexRow
            (unionCols [⟨["X", "Y"], [[Cell.num 1, Cell.num 2]]⟩,
              ⟨["Y", "Z"], [[Cell.num 3, Cell.num 4]]⟩]) df))).flatten ∧
    (∀ df ∈ ([⟨["X", "Y"], [[Cell.num 1, Cell.num 2]]⟩,
        ⟨["Y", "Z"], [[Cell.num 3, Cell.num 4]]⟩] : List Table), ∀ r ∈ df.rows,
      ∀ j : ℕ, j < (unionCols [⟨["X", "Y"], [[Cell.num 1, Cell.num 2]]⟩,
          ⟨["Y", "Z"], [[Cell.num 3, Cell.num 4]]⟩]).length →
      colIdx df.header ((unionCols [⟨["X", "Y"], [[Cell.num 1, Cell.num 2]]⟩,
          ⟨["Y", "Z"], [[Cell.num 3, Cell.num 4]]⟩]).getD j "") = none →
      (reindexRow (unionCols [⟨["X", "Y"], [[Cell.num 1, Cell.num 2]]⟩,
          ⟨["Y", "Z"], [[Cell.num 3, Cell.num 4]]⟩]) df r).getD j Cell.missing
        = Cell.missing) ∧
    (∀ df ∈ ([⟨["X", "Y"], [[Cell.num 1, Cell.num 2]]⟩,
        ⟨["Y", "Z"], [[Cell.num 3, Cell.num 4]]⟩] : List Table), ∀ r ∈ df.rows,
      ∀ j i : ℕ, j < (unionCols [⟨["X", "Y"], [[Cell.num 1, Cell.num 2]]⟩,
          ⟨["Y", "Z"], [[Cell.num 3, Cell.num 4]]⟩]).length →
      colIdx df.header ((unionCols [⟨["X", "Y"], [[Cell.num 1, Cell.num 2]]⟩,
          ⟨["Y", "Z"], [[Cell.num 3, Cell.num 4]]⟩]).getD j "") = some i →
      (reindexRow (unionCols [⟨["X", "Y"], [[Cell.num 1, Cell.num 2]]⟩,
          ⟨["Y", "Z"], [[Cell.num 3, Cell.num 4]]⟩]) df r).getD j Cell.missing
        = r.getD i Cell.missing) :=
  C4_full_union_merge [⟨["X", "Y"], [[Cell.num 1, Cell.num 2]]⟩,
    ⟨["Y", "Z"], [[Cell.num 3, Cell.num 4]]⟩]

theorem hasProvenance_spec (name : String) (t : Table) (h : hasProvenance name t = true) :
    ∃ i, colIdx t.header "Source_File" = some i ∧
      ∀ r ∈ t.rows, r.getD i Cell.missing = Cell.str name := by
  unfold hasProvenance at h
  cases hc : colIdx t.header "Source_File" with
  | none => rw [hc] at h; exact Bool.noConfusion h
  | some i =>
    rw [hc] at h
    refine ⟨i, rfl, ?_⟩
    intro r hr
    exact of_decide_eq_true (List.all_eq_true.mp h r hr)

/-- C5 counterexample: a successfully processed source file whose table has a
header but zero rows (a header-only CSV) is skipped by `combine_all_data`, so
the merge succeeds while that file's name never appears in the provenance
column. -/
theorem C5_counterexample :
    combine_all_data
        [("a.csv", (standardize_columns ⟨["Order_ID"], []⟩ "a.csv").1),
         ("b.csv", (standardize_columns ⟨["Order_ID"], [[Cell.num 1]]⟩ "b.csv").1)]
      = some ⟨["Order_ID", "Source_File"], [[Cell.num 1, Cell.str "b.csv"]]⟩ ∧
    Cell.str "a.csv" ∉
      (Table.getCol ⟨["Order_ID", "Source_File"], [[Cell.num 1, Cell.str "b.csv"]]⟩
        "Source_File") := by
  constructor
  · decide
  · decide

/-- Unfolded form of `combine_all_data` (definitional). -/
theorem combine_all_data_eq (files : List (String × Table)) :
    combine_all_data files
      = if files.isEmpty then none
        else if (files.filterMap (fun ft =>
            if 0 < ft.2.rows.length then some (fixTable ft.2) else none)).isEmpty then
          none
        else
          some (full_union_merge (files.filterMap (fun ft =>
            if 0 < ft.2.rows.length then some (fixTable ft.2) else none))) := rfl

/-- C5 as amended: whenever `combine_all_data` succeeds on a set of processed
files (each well formed, with its own name constant in its `Source_File`
column, as `standardize_columns` guarantees), every file whose table is
non-empty contributes at least one row: its name appears in the provenance
column of the merged output.  Zero-row files may be present in the set; they
are exactly the ones the merge skips. -/
theorem C5_provenance (files : List (String × Table))
    (h : ∀ ft ∈ files, ft.2.header.Nodup ∧ ft.2.Rect ∧
      hasProvenance ft.1 ft.2 = true) :
    ∀ m : Table, combine_all_data files = some m →
      ∀ ft ∈ files, ft.2.rows ≠ [] →
        Cell.str ft.1 ∈ m.getCol "Source_File" := by
  intro m hm ft hft hrne
  obtain ⟨hnd, hrect, hprov⟩ := h ft hft
  rw [combine_all_data_eq] at hm
  by_cases hfe : files.isEmpty
  · rw [if_pos hfe] at hm
    exact Option.noConfusion hm
  rw [if_neg hfe] at hm
  by_cases hce : (files.filterMap (fun ft =>
      if 0 < ft.2.rows.length then some (fixTable ft.2) else none)).isEmpty
  · rw [if_pos hce] at hm
    exact Option.noConfusion hm
  rw [if_neg hce] at hm
  have hm2 : full_union_merge (files.filterMap (fun ft =>
      if 0 < ft.2.rows.length then some (fixTable ft.2) else none)) = m :=
    Option.some.inj hm
  subst hm2
  set combined := files.filterMap (fun ft =>
    if 0 < ft.2.rows.length then some (fixTable ft.2) else none) with hcombined
  have hfix : fixTable ft.2 = ft.2 := by
    unfold fixTable
    rw [if_pos hnd]
  have hdfmem : ft.2 ∈ combined := by
    rw [hcombined]
    refine List.mem_filterMap.mpr ⟨ft, hft, ?_⟩
    rw [if_pos (by
      cases hr : ft.2.rows with
      | nil => exact absurd hr hrne
      | cons r rs => simp [hr]), hfix]
  obtain ⟨i, hi, hval⟩ := hasProvenance_spec ft.1 ft.2 hprov
  have hsf : "Source_File" ∈ unionCols combined :=
    (mem_unionCols _ _).mpr ⟨ft.2, hdfmem, colIdx_mem _ _ _ hi⟩
  obtain ⟨j, hj⟩ := colIdx_isSome_of_mem _ _ hsf
  obtain ⟨r, hr⟩ := List.exists_mem_of_ne_nil _ hrne
  have hrowmem : reindexRow (unionCols combined) ft.2 r
      ∈ (full_union_merge combined).rows := by
    unfold full_union_merge
    rw [List.mem_flatten]
    refine ⟨ft.2.rows.map (reindexRow (unionCols combined) ft.2), ?_, ?_⟩
    · have : (fun df => (addMissingAndReindex (unionCols combined) df).rows) ft.2
          = ft.2.rows.map (reindexRow (unionCols combined) ft.2) := rfl
      rw [← this]
      exact List.mem_map_of_mem _ hdfmem
    · exact List.mem_map_of_mem _ hr
  have hcell : (reindexRow (unionCols combined) ft.2 r).getD j Cell.missing
      = Cell.str ft.1 := by
    rw [reindexRow_getD _ _ _ _ (colIdx_lt _ _ _ hj)]
    rw [colIdx_getD _ _ _ hj ""]
    rw [hi]
    exact hval r hr
  unfold Table.getCol
  rw [show colIdx (full_union_merge combined).header "Source_File" = some j from hj]
  rw [← hcell]
  exact List.mem_map_of_mem _ hrowmem

/-- Witness for C5 as amended at a mixed pair of processed files: one
zero-row file (skipped by the merge) alongside one non-empty file, whose name
the theorem places in the provenance column. -/
theorem C5_provenance_witness :
    Cell.str "b.csv" ∈
      (Table.getCol ⟨["Order_ID", "Source_File"], [[Cell.num 1, Cell.str "b.csv"]]⟩
        "Source_File") :=
  C5_provenance
    [("a.csv", (standardize_columns ⟨["Order_ID"], []⟩ "a.csv").1),
     ("b.csv", (standardize_columns ⟨["Order_ID"], [[Cell.num 1]]⟩ "b.csv").1)]
    (by decide)
    ⟨["Order_ID", "Source_File"], [[Cell.num 1, Cell.str "b.csv"]]⟩
    (by decide)
    ("b.csv", (standardize_columns ⟨["Order_ID"], [[Cell.num 1]]⟩ "b.csv").1)
    (by decide)
    (by decide)

theorem two_le_count_of_getD (l : List String) (i j : ℕ) (c : String)
    (hij : i < j) (hj : j < l.length) (hi : l.getD i "" = c) (hjc : l.getD j "" = c) :
    2 ≤ l.count c := by
  induction l generalizing i j with
  | nil => simp at hj
  | cons x xs ih =>
    cases i with
    | zero =>
      cases j with
      | zero => omega
      | succ j' =>
        rw [List.getD_cons_zero] at hi
        rw [List.getD_cons_succ] at hjc
        have hj' : j' < xs.length := by simpa using hj
        have hmem : c ∈ xs := by
          rw [← hjc]
          exact getD_mem _ _ _ hj'
        have hpos : 1 ≤ xs.count c := List.count_pos_iff_mem.mpr hmem
        rw [List.count_cons]
        simp only [hi, beq_self_eq_true, if_true]
        omega
    | succ i' =>
      cases j with
      | zero => omega
      | succ j' =>
        rw [List.getD_cons_succ] at hi hjc
        have h2 := ih i' j' (by omega) (by simpa using hj) hi hjc
        rw [List.count_cons]
        split <;> omega

theorem zip_map_self {α β γ : Type} (l : List α) (g : α → β) (f : α → β → γ) :
    (l.zip (l.map g)).map (fun rv => f rv.1 rv.2) = l.map (fun r => f r (g r)) := by
  induction l with
  | nil => rfl
  | cons x xs ih => simp [ih]

/-- C7 counterexample: two source columns `Qty` and `Quantity` both map to the
canonical name `Quantity`; `rename` relabels both, so the mapped table carries
the canonical name twice and neither column's values are overwritten. -/
theorem C7_counterexample :
    (standardize_columns ⟨["Qty", "Quantity"], [[Cell.num 1, Cell.num 2]]⟩
        "f.csv").1.header.count "Quantity" = 2 ∧
    (standardize_columns ⟨["Qty", "Quantity"], [[Cell.num 1, Cell.num 2]]⟩
        "f.csv").1.header.count "Quantity" ≠ 1 ∧
    (standardize_columns ⟨["Qty", "Quantity"], [[Cell.num 1, Cell.num 2]]⟩
        "f.csv").1.rows = [[Cell.num 1, Cell.num 2, Cell.str "f.csv"]] := by
  refine ⟨by decide, by decide, by decide⟩

/-- C7 as amended: when two distinct source columns map to the same canonical
name, the mapping operation relabels both — the canonical name appears at
least twice in the mapped header, and every row keeps all its cell values
(plus the appended provenance cell); no column's values overwrite another's. -/
theorem C7_duplicate_labels (df : Table) (file_name : String) (i j : ℕ)
    (hij : i < j) (hj : j < df.header.length)
    (hc : canonicalName (df.header.getD j "") = canonicalName (df.header.getD i ""))
    (hsf : "Source_File" ∉ df.header.map canonicalName) :
    2 ≤ (standardize_columns df file_name).1.header.count
        (canonicalName (df.header.getD i "")) ∧
    (standardize_columns df file_name).1.rows
      = df.rows.map (fun r => r ++ [Cell.str file_name]) := by
  have hnone : colIdx (df.header.map canonicalName) "Source_File" = none :=
    (colIdx_none_iff _ _).mpr hsf
  have hform : (standardize_columns df file_name).1
      = ⟨df.header.map canonicalName ++ ["Source_File"],
         (df.rows.zip (df.rows.map (fun _ => Cell.str file_name))).map
           (fun rv => rv.1 ++ [rv.2])⟩ := by
    simp only [standardize_columns, Table.setCol, hnone]
  rw [hform]
  constructor
  · have hgi : (df.header.map canonicalName).getD i ""
        = canonicalName (df.header.getD i "") := by
      rw [List.getD_eq_getElem _ _ (by rw [List.length_map]; omega), List.getElem_map,
        ← List.getD_eq_getElem df.header "" (by omega)]
    have hgj : (df.header.map canonicalName).getD j ""
        = canonicalName (df.header.getD i "") := by
      rw [List.getD_eq_getElem _ _ (by rw [List.length_map]; omega), List.getElem_map,
        ← List.getD_eq_getElem df.header "" hj]
      exact hc
    have h2 := two_le_count_of_getD (df.header.map canonicalName) i j
      (canonicalName (df.header.getD i "")) hij (by rw [List.length_map]; omega) hgi hgj
    rw [List.count_append]
    omega
  · exact zip_map_self df.rows (fun _ => Cell.str file_name) (fun r v => r ++ [v])

/-- Witness for C7 as amended: `cost` and `price` both map to `Price`. -/
theorem C7_duplicate_labels_witness :
    2 ≤ (standardize_columns ⟨["cost", "price"], [[Cell.num 3, Cell.num 4]]⟩
        "g.csv").1.header.count
        (canonicalName ((⟨["cost", "price"], [[Cell.num 3, Cell.num 4]]⟩ : Table).header.getD
          0 "")) ∧
    (standardize_columns ⟨["cost", "price"], [[Cell.num 3, Cell.num 4]]⟩
        "g.csv").1.rows
      = (⟨["cost", "price"], [[Cell.num 3, Cell.num 4]]⟩ : Table).rows.map
          (fun r => r ++ [Cell.str "g.csv"]) :=
  C7_duplicate_labels ⟨["cost", "price"], [[Cell.num 3, Cell.num 4]]⟩ "g.csv" 0 1
    (by decide) (by decide) (by decide) (by decide)

theorem dictInsert_fresh {α : Type} (k : String) (v : α) (d : List (String × α))
    (h : k ∉ d.map Prod.fst) : dictInsert k v d = d ++ [(k, v)] := by
  unfold dictInsert
  rw [if_neg]
  simp only [List.any_eq_true, decide_eq_true_eq, not_exists]
  intro kv hkv
  exact h (hkv.2 ▸ List.mem_map_of_mem Prod.fst hkv.1)

/-- C8 counterexample: two input paths sharing the basename `x.csv` collapse
into one dict entry — the second file's outcome overwrites the first — so the
batch result does not hold one outcome entry per input file. -/
theorem C8_counterexample :
    (process_multiple_files (fun _ => (Except.error "boom" : Except String Unit))
        ["a/x.csv", "b/x.csv"]).length = 1 ∧
    (process_multiple_files (fun _ => (Except.error "boom" : Except String Unit))
        ["a/x.csv", "b/x.csv"]).length ≠ 2 := by
  refine ⟨by decide, by decide⟩

/-- C8 as amended: results are keyed by basename, so on paths with pairwise
distinct basenames the batch returns exactly one entry per input file, in
input order; a file whose processing raises yields a failure entry recording
its message and path, and no exception escapes — the fold is total and always
delivers the full result map. -/
theorem C8_batch_isolation {α : Type} (process : String → Except String α)
    (paths : List String) (hnd : (paths.map baseName).Nodup) :
    process_multiple_files process paths
      = paths.map (fun p => (baseName p, outcomeOf process p)) ∧
    (∀ p : String, ∀ e : String, process p = Except.error e →
      outcomeOf process p = Outcome.failed e p) ∧
    (∀ p : String, ∀ a : α, process p = Except.ok a →
      outcomeOf process p = Outcome.ok a p) := by
  refine ⟨?_, ?_, ?_⟩
  · have key : ∀ (ps : List String) (acc : List (String × Outcome α)),
        (∀ p ∈ ps, baseName p ∉ acc.map Prod.fst) →
        (ps.map baseName).Nodup →
        ps.foldl (fun results p => dictInsert (baseName p) (outcomeOf process p) results)
            acc
          = acc ++ ps.map (fun p => (baseName p, outcomeOf process p)) := by
      intro ps
      induction ps with
      | nil => intro acc hfresh hnodup; simp
      | cons p ps ih =>
        intro acc hfresh hnodup
        rw [List.foldl_cons]
        rw [dictInsert_fresh _ _ _ (hfresh p (by simp))]
        simp only [List.map_cons] at hnodup
        have hnodup' : (ps.map baseName).Nodup := (List.nodup_cons.mp hnodup).2
        have hnotin : baseName p ∉ ps.map baseName := (List.nodup_cons.mp hnodup).1
        rw [ih (acc ++ [(baseName p, outcomeOf process p)]) ?_ hnodup']
        · simp [List.append_assoc]
        · intro q hq
          rw [List.map_append]
          simp only [List.mem_append, List.map_cons, List.map_nil, List.mem_singleton,
            not_or]
          constructor
          · exact hfresh q (by simp [hq])
          · intro hbq
            exact hnotin (hbq ▸ List.mem_map_of_mem baseName hq)
    exact key paths [] (by simp) hnd
  · intro p e he
    unfold outcomeOf
    rw [he]
  · intro p a ha
    unfold outcomeOf
    rw [ha]

/-- Witness for C8 as amended: one succeeding and one failing file. -/
theorem C8_batch_isolation_witness :
    process_multiple_files
        (fun p => if p = "a.csv" then (Except.ok "A" : Except String String)
          else Except.error "bad")
        ["a.csv", "dir/b.csv"]
      = [("a.csv", Outcome.ok "A" "a.csv"),
         ("b.csv", Outcome.failed "bad" "dir/b.csv")] := by
  rw [(C8_batch_isolation
    (fun p => if p = "a.csv" then (Except.ok "A" : Except String String)
      else Except.error "bad")
    ["a.csv", "dir/b.csv"] (by decide)).1]
  decide

theorem Heap.get_alloc_lt (h : Heap) (t : Table) (r : ℕ) (hr : r < h.tables.length) :
    (h.alloc t).1.get r = h.get r := by
  unfold Heap.alloc Heap.get
  exact List.getD_append _ _ _ _ hr

theorem Heap.get_set_ne (h : Heap) (r r' : ℕ) (t : Table) (hne : r ≠ r') :
    (h.set r t).get r' = h.get r' := by
  unfold Heap.set Heap.get
  exact getD_set_ne _ _ _ _ _ hne

theorem standardize_heap_parts (h : Heap) (df : ℕ) (hdf : df < h.tables.length)
    (file_name : String) :
    (standardize_columns_heap h df file_name).1.get df = h.get df ∧
    (standardize_columns_heap h df file_name).1.tables.length = h.tables.length + 1 := by
  constructor
  · simp only [standardize_columns_heap]
    rw [Heap.get_set_ne _ _ _ _ (by show h.tables.length ≠ df; omega),
      Heap.get_set_ne _ _ _ _ (by show h.tables.length ≠ df; omega),
      Heap.get_alloc_lt _ _ _ hdf]
  · simp only [standardize_columns_heap]
    show ((((h.tables ++ _).set h.tables.length _)).set h.tables.length _).length
      = h.tables.length + 1
    rw [List.length_set, List.length_set, List.length_append]
    rfl

/-- C9: the schema-mapping and cleaning operations act on a fresh copy of
their argument, so after running both over the object store the caller's
table is unchanged — its header, rows and values are exactly what they were
before the call. -/
theorem C9_no_input_mutation (h : Heap) (df : ℕ) (hdf : df < h.tables.length)
    (file_name : String) (toDatetime : List Cell → List Cell) :
    ((basic_data_cleaning_heap toDatetime
        (standardize_columns_heap h df file_name).1
        (standardize_columns_heap h df file_name).2.1).1).get df = h.get df ∧
    ((standardize_columns_heap h df file_name).1).get df = h.get df := by
  obtain ⟨hstd, hstdlen⟩ := standardize_heap_parts h df hdf file_name
  refine ⟨?_, hstd⟩
  simp only [basic_data_cleaning_heap]
  rw [Heap.get_set_ne _ _ _ _ (by
    show (standardize_columns_heap h df file_name).1.tables.length ≠ df
    rw [hstdlen]
    omega)]
  rw [Heap.get_alloc_lt _ _ _ (by rw [hstdlen]; omega)]
  exact hstd

/-- Witness for C9 at a one-table store. -/
theorem C9_no_input_mutation_witness :
    ((basic_data_cleaning_heap id
        (standardize_columns_heap ⟨[⟨["A"], [[Cell.num 1]]⟩]⟩ 0 "f.csv").1
        (standardize_columns_heap ⟨[⟨["A"], [[Cell.num 1]]⟩]⟩ 0 "f.csv").2.1).1).get 0
      = (⟨[⟨["A"], [[Cell.num 1]]⟩]⟩ : Heap).get 0 ∧
    ((standardize_columns_heap ⟨[⟨["A"], [[Cell.num 1]]⟩]⟩ 0 "f.csv").1).get 0
      = (⟨[⟨["A"], [[Cell.num 1]]⟩]⟩ : Heap).get 0 :=
  C9_no_input_mutation ⟨[⟨["A"], [[Cell.num 1]]⟩]⟩ 0 (by decide) "f.csv" id

theorem Heap.get_alloc_self (h : Heap) (t : Table) : (h.alloc t).1.get (h.alloc t).2 = t := by
  unfold Heap.alloc Heap.get
  rw [List.getD_append_right _ _ _ _ (le_refl _)]
  simp

theorem Heap.get_set_self (h : Heap) (r : ℕ) (t : Table) (hr : r < h.tables.length) :
    (h.set r t).get r = t := by
  unfold Heap.set Heap.get
  exact getD_set_self _ _ _ _ hr

theorem Heap.set_length (h : Heap) (r : ℕ) (t : Table) :
    (h.set r t).tables.length = h.tables.length := by
  unfold Heap.set
  simp

theorem Heap.alloc_length (h : Heap) (t : Table) :
    (h.alloc t).1.tables.length = h.tables.length + 1 := by
  unfold Heap.alloc
  simp

theorem standardize_heap_result (h : Heap) (df : ℕ) (file_name : String) :
    (standardize_columns_heap h df file_name).1.get
        (standardize_columns_heap h df file_name).2.1
      = (standardize_columns (h.get df) file_name).1 := by
  simp only [standardize_columns_heap, standardize_columns]
  rw [Heap.get_set_self _ _ _ (by
    rw [Heap.set_length, Heap.alloc_length]
    exact Nat.lt_succ_self _)]
  rw [Heap.get_set_self _ _ _ (by
    rw [Heap.alloc_length]
    exact Nat.lt_succ_self _)]
  rw [Heap.get_alloc_self]

theorem clean_heap_result (toDatetime : List Cell → List Cell) (h : Heap) (df : ℕ) :
    (basic_data_cleaning_heap toDatetime h df).1.get
        (basic_data_cleaning_heap toDatetime h df).2
      = basic_data_cleaning toDatetime (h.get df) := by
  simp only [basic_data_cleaning_heap]
  rw [Heap.get_set_self _ _ _ (by
    rw [Heap.alloc_length]
    exact Nat.lt_succ_self _)]
  rw [Heap.get_alloc_self]
